import Mathlib

/-!
Verification of the live detection-and-matching pipeline of
`arc_companion.py` (arc-raiders-advanced-tooltip).

Shallow embedding conventions:
* Python strings are `List Char` (`Str`); the character-level operations
  (`strip`, `lower`, `translate`, whitespace handling, `re` word
  boundaries) are modelled at ASCII precision, which covers the OCR
  character whitelist `[A-Za-z0-9 ]` and the database names the pipeline
  handles.
* Python floats are modelled as exact rationals (`ℚ`); the similarity
  thresholds 0.60 / 0.70 / 0.80 / 3.0 are exact decimal constants, and no
  comparison in the source is close enough to the float rounding error of
  these quantities for the distinction to matter at realistic sizes.
* The item table (built by `build_item_lookup`) is modelled as an
  association list `List (Str × α)` in insertion order with an opaque row
  type `α`; Python dict membership/indexing becomes first-match search
  (the real dict has unique keys, where both coincide).
* OpenCV / tesseract / tkinter are external engines: contours, OCR output
  and mouse position enter the model as data (or as a function parameter
  for the OCR engine), exactly at the boundary where the source consumes
  them.
-/

namespace ArcTooltip

abbrev Str := List Char

/-- Python `str` whitespace (`\s` at ASCII precision): the characters
`str.strip`, `str.split` and `re.sub(r"\s+", ...)` treat as spaces. -/
def isPySpace (c : Char) : Bool :=
  c = ' ' || c = '\t' || c = '\n' || c = '\r' || c = '\x0b' || c = '\x0c'

/-- Python `s.strip()`: drop leading and trailing whitespace. -/
def pyStrip (s : Str) : Str :=
  ((s.dropWhile isPySpace).reverse.dropWhile isPySpace).reverse

/-- Helper for `collapseWs`: `prevSpace` records whether the previous
character was part of a whitespace run already emitted as `' '`. -/
def collapseWsAux : Str → Bool → Str
  | [], _ => []
  | c :: rest, prevSpace =>
    if isPySpace c then
      if prevSpace then collapseWsAux rest true
      else ' ' :: collapseWsAux rest true
    else c :: collapseWsAux rest false

/-- Python `re.sub(r"\s+", " ", s)`: each maximal whitespace run becomes a
single space. -/
def collapseWs (s : Str) : Str := collapseWsAux s false

/-- Helper for `splitWs`: accumulates the current word reversed. -/
def splitWsAux : Str → Str → List Str
  | [], acc => if acc.isEmpty then [] else [acc.reverse]
  | c :: rest, acc =>
    if isPySpace c then
      if acc.isEmpty then splitWsAux rest []
      else acc.reverse :: splitWsAux rest []
    else splitWsAux rest (c :: acc)

/-- Python `s.split()`: split on whitespace runs, no empty tokens. -/
def splitWs (s : Str) : List Str := splitWsAux s []

/-- Python `\w` at ASCII precision (`re` word character). -/
def isWordChar (c : Char) : Bool := c.isAlphanum || c = '_'

/-- Roman-numeral letters accepted by the pattern `[IVXLCDM]` under
`re.IGNORECASE`. -/
def isRomanChar (c : Char) : Bool :=
  let u := c.toUpper
  u = 'I' || u = 'V' || u = 'X' || u = 'L' || u = 'C' || u = 'D' || u = 'M'

/-- The maximal run of word characters at the end of `s` (empty when `s`
ends in a non-word character).  The regex
`(\b[IVXLCDM]+\b|\b\d+\b)$` can only match this run as a whole:
its token ends at `$` and its leading `\b` demands a non-word character
(or the start) right before the token. -/
def trailingWordRun (s : Str) : Str :=
  (s.reverse.takeWhile isWordChar).reverse

/-- `token.upper().replace("|", "I").replace("L", "I")` from
`normalize_name_for_match` (character-wise, as both replacements are
single characters). -/
def tokenClean (t : Str) : Str :=
  (t.map Char.toUpper).map (fun c => if c = '|' then 'I' else c)
    |>.map (fun c => if c = 'L' then 'I' else c)

/-- The `roman_map` dict of `normalize_name_for_match`. -/
def romanLookup (t : Str) : Option Str :=
  if t = ['I'] then some ['1']
  else if t = ['I', 'I'] then some ['2']
  else if t = ['I', 'I', 'I'] then some ['3']
  else if t = ['I', 'V'] then some ['4']
  else none

/-- The trailing roman-numeral / integer rewriting block of
`normalize_name_for_match` (the `if s:` block with the `re.search`): when
the final word of `s` is entirely roman letters or entirely digits, it is
the regex match; it is replaced by its digit value when `roman_map` or
`isdigit` provides one, otherwise `s` is unchanged. -/
def romanDigitStep (s : Str) : Str :=
  if s.isEmpty then s
  else
    let t := trailingWordRun s
    if !t.isEmpty && (t.all isRomanChar || t.all Char.isDigit) then
      let clean := tokenClean t
      match romanLookup clean with
      | some d => s.take (s.length - t.length) ++ d
      | none =>
        if clean.all Char.isDigit then s.take (s.length - t.length) ++ clean
        else s
    else s

/-- The short-name translation table (`core` length ≤ 3): only `0 → o`. -/
def transShort (c : Char) : Char := if c = '0' then 'o' else c

/-- The long-name translation table: `I`, `|`, `1 → l` and `0 → o`. -/
def transLong (c : Char) : Char :=
  if c = 'I' || c = '|' || c = '1' then 'l'
  else if c = '0' then 'o' else c

/-- `normalize_name_for_match` (arc_companion.py:1220-1275): strip, rewrite
a trailing roman numeral / integer to a digit string, apply the
confusable-character fold (minimal when the whitespace-free core has ≤ 3
characters), lowercase, collapse whitespace runs. -/
def normalize_name_for_match (name : Str) : Str :=
  let s := pyStrip name
  let s := romanDigitStep s
  let core := s.filter (fun c => !isPySpace c)
  let s := if core.length ≤ 3 then s.map transShort else s.map transLong
  let s := s.map Char.toLower
  collapseWs s

/-!
### difflib.SequenceMatcher (CPython), at the precision the matcher uses

`find_item_row_by_name` scores candidates with
`difflib.SequenceMatcher(None, a, b).ratio()` and with
`difflib.get_close_matches(word, keys, n=1, cutoff=0.70)`; both are
embedded from CPython's difflib with `isjunk = None` (so the junk set is
empty) and the `autojunk` popularity filter on the second sequence.
-/

/-- CPython `SequenceMatcher.__chain_b`: `b2j` maps a character to the
ascending list of its positions in `b`; with `autojunk` (the default),
characters occupying more than one percent of a `b` of length ≥ 200 are
dropped ("popular" elements seed no matches). -/
def b2j (b : Str) (c : Char) : List Nat :=
  let ps := (List.range b.length).filter (fun j => b.get? j = some c)
  if 200 ≤ b.length ∧ b.length / 100 + 1 < ps.length then [] else ps

/-- State of the `find_longest_match` dynamic program: the row map being
built (`j2len` of the next row) and the current best `(i, j, size)`. -/
abbrev FlmSt := (Nat → Nat) × (Nat × Nat × Nat)

/-- One row (`for i in range(alo, ahi)`) of `find_longest_match`'s dynamic
program: `j2len` is the completed previous row; `js` lists the positions
of `a[i]` in `b` restricted to `[blo, bhi)` (the `continue`/`break` pair
on the ascending position list).  `j2len.get(j-1, 0)` at `j = 0` is the
Python lookup of key `-1`, which is absent. -/
def flmRow (j2len : Nat → Nat) (i : Nat) (js : List Nat)
    (best : Nat × Nat × Nat) : FlmSt :=
  js.foldl
    (fun (st : FlmSt) j =>
      let k := (if j = 0 then 0 else j2len (j - 1)) + 1
      let m := fun j' => if j' = j then k else st.1 j'
      if st.2.2.2 < k then (m, (i + 1 - k, (j + 1 - k, k))) else (m, st.2))
    ((fun _ => 0), best)

/-- The dynamic-programming phase of `SequenceMatcher.find_longest_match`
over the window `[alo, ahi) × [blo, bhi)`, before the extension loops. -/
def flmDP (a b : Str) (alo ahi blo bhi : Nat) : Nat × Nat × Nat :=
  ((List.range' alo (ahi - alo)).foldl
    (fun (st : FlmSt) i =>
      let js := match a.get? i with
        | none => []
        | some c => (b2j b c).filter (fun j => blo ≤ j && j < bhi)
      flmRow st.1 i js st.2)
    ((fun _ => 0), (alo, (blo, 0)))).2

/-- The left extension loop of `find_longest_match` (the junk set is
empty, so `not isbjunk(...)` always holds and the junk-extension loops do
nothing).  Fuel bounds the number of steps; `besti - alo` steps always
suffice. -/
def extendLeft (a b : Str) (alo blo : Nat) :
    Nat → Nat × Nat × Nat → Nat × Nat × Nat
  | 0, st => st
  | n + 1, (bi, bj, bs) =>
    if alo < bi && blo < bj &&
        (a.get? (bi - 1)).isSome && a.get? (bi - 1) = b.get? (bj - 1) then
      extendLeft a b alo blo n (bi - 1, bj - 1, bs + 1)
    else (bi, bj, bs)

/-- The right extension loop of `find_longest_match`. -/
def extendRight (a b : Str) (ahi bhi : Nat) :
    Nat → Nat × Nat × Nat → Nat × Nat × Nat
  | 0, st => st
  | n + 1, (bi, bj, bs) =>
    if bi + bs < ahi && bj + bs < bhi &&
        (a.get? (bi + bs)).isSome && a.get? (bi + bs) = b.get? (bj + bs) then
      extendRight a b ahi bhi n (bi, bj, bs + 1)
    else (bi, bj, bs)

/-- CPython `SequenceMatcher.find_longest_match` on a window, with
`isjunk = None`: the DP phase followed by the two non-junk extension
loops. -/
def find_longest_match (a b : Str) (alo ahi blo bhi : Nat) :
    Nat × Nat × Nat :=
  let st := flmDP a b alo ahi blo bhi
  let st := extendLeft a b alo blo (st.1 - alo) st
  extendRight a b ahi bhi (ahi - (st.1 + st.2.2)) st

/-- Total size of the matching blocks of
`SequenceMatcher.get_matching_blocks` restricted to a window: the longest
match, plus recursion on the two remaining corners (with the same guards
as CPython's work queue).  Fuel only serves termination;
`(ahi - alo) + (bhi - blo) + 1` always suffices because each corner is
strictly smaller. -/
def matchedM (a b : Str) : Nat → Nat → Nat → Nat → Nat → Nat
  | 0, _, _, _, _ => 0
  | fuel + 1, alo, ahi, blo, bhi =>
    let r := find_longest_match a b alo ahi blo bhi
    let i := r.1; let j := r.2.1; let k := r.2.2
    if k = 0 then 0
    else
      k + (if alo < i ∧ blo < j then matchedM a b fuel alo i blo j else 0)
        + (if i + k < ahi ∧ j + k < bhi then
            matchedM a b fuel (i + k) ahi (j + k) bhi else 0)

/-- `sum(size for _, _, size in SequenceMatcher.get_matching_blocks())`
over the full strings. -/
def matchedFull (a b : Str) : Nat :=
  matchedM a b (a.length + b.length + 1) 0 a.length 0 b.length

/-- `difflib._calculate_ratio(matches, length)`: the exact value of
`2.0 * matches / length` (`1.0` for two empty sequences). -/
def calcRatio (numMatches length : Nat) : ℚ :=
  if length = 0 then 1 else mkRat (2 * numMatches) length

/-- `SequenceMatcher(None, a, b).ratio()`. -/
def ratioQ (a b : Str) : ℚ :=
  calcRatio (matchedFull a b) (a.length + b.length)

/-- The `matches` count of `SequenceMatcher.quick_ratio`: for each element
of `a` in order, it matches if `b` still has an unconsumed copy (`avail`
bookkeeping of CPython). -/
def quickMatches (a b : Str) : Nat :=
  (a.foldl
    (fun (st : (Char → Option Int) × Nat) elt =>
      let numb := match st.1 elt with
        | some v => v
        | none => (b.count elt : Int)
      ((fun c => if c = elt then some (numb - 1) else st.1 c),
        if 0 < numb then st.2 + 1 else st.2))
    ((fun _ => none), 0)).2

/-- `SequenceMatcher.quick_ratio()`. -/
def quickRatioQ (a b : Str) : ℚ :=
  calcRatio (quickMatches a b) (a.length + b.length)

/-- `SequenceMatcher.real_quick_ratio()`. -/
def realQuickRatioQ (a b : Str) : ℚ :=
  calcRatio (min a.length b.length) (a.length + b.length)

/-- Python `<` on strings (lexicographic by code point), as a Bool. -/
def strLtB : Str → Str → Bool
  | [], [] => false
  | [], _ :: _ => true
  | _ :: _, [] => false
  | c :: s, d :: t => if c = d then strLtB s t else decide (c < d)

/-- Python `<` on the `(score, string)` pairs `get_close_matches` feeds to
`heapq.nlargest`. -/
def pairLtB (p q : ℚ × Str) : Bool :=
  if p.1 = q.1 then strLtB p.2 q.2 else decide (p.1 < q.1)

/-- `max(xs)` on such pairs (what `heapq.nlargest(1, xs)` computes):
Python's `max` keeps the first of equal elements. -/
def pairMax (xs : List (ℚ × Str)) : Option (ℚ × Str) :=
  match xs with
  | [] => none
  | x :: rest => some (rest.foldl (fun cur y => if pairLtB cur y then y else cur) x)

/-- `difflib.get_close_matches(word, possibilities, n=1, cutoff)`: keep
the possibilities passing the `real_quick_ratio` / `quick_ratio` /
`ratio` cutoff chain (each scored by `SequenceMatcher` with
`seq1 = x`, `seq2 = word`), then the largest `(ratio, x)` pair. -/
def getCloseMatches1 (word : Str) (poss : List Str) (cutoff : ℚ) :
    Option Str :=
  let result := poss.filterMap (fun x =>
    if realQuickRatioQ x word ≥ cutoff ∧ quickRatioQ x word ≥ cutoff ∧
        ratioQ x word ≥ cutoff
    then some (ratioQ x word, x) else none)
  (pairMax result).map (·.2)

/-!
### The item table and `find_item_row_by_name`
-/

/-- The `ITEM_LOOKUP` dict: normalized key → row, in insertion order, with
an opaque row type.  (The real dict has unique keys; first-match search
coincides with dict indexing there.) -/
abbrev Tbl (α : Type) := List (Str × α)

/-- Python `norm in ITEM_LOOKUP` / `ITEM_LOOKUP[norm]`. -/
def dictFind {α : Type} (tbl : Tbl α) (k : Str) : Option α :=
  (tbl.find? (fun p => p.1 = k)).map (·.2)

/-- Python substring test `t in k`. -/
def isSubOf (t k : Str) : Bool :=
  match k with
  | [] => t.isEmpty
  | _ :: rest => t.isPrefixOf k || isSubOf t rest

/-- Python `max(candidates, key=f)` (`f` valued in `ℚ`): keeps the first
of the elements attaining the maximum; `none` on an empty list (the
source only calls it on lists checked to be non-empty). -/
def pyMaxBy {α : Type} (f : α → ℚ) : List α → Option α
  | [] => none
  | x :: rest => some (rest.foldl (fun cur y => if f cur < f y then y else cur) x)

/-- `find_item_row_by_name` (arc_companion.py:1315-1352): exact normalized
lookup, then token-overlap strict match (threshold 0.6), then substring
match (threshold 0.70), then `get_close_matches` (cutoff 0.70), else
`None`. -/
def find_item_row_by_name {α : Type} (tbl : Tbl α) (name : Str) : Option α :=
  if name.isEmpty || tbl.isEmpty then none
  else
    let norm := normalize_name_for_match name
    let keys := tbl.map (·.1)
    match dictFind tbl norm with
    | some r => some r
    | none =>
      let tokens := (splitWs norm).filter (fun t => 3 ≤ t.length)
      let stage2 : Option α :=
        if !tokens.isEmpty then
          let strictCandidates :=
            keys.filter (fun k => tokens.all (fun t => isSubOf t k))
          match pyMaxBy (fun k => ratioQ norm k) strictCandidates with
          | some bestKey =>
            if mkRat 6 10 ≤ ratioQ norm bestKey then dictFind tbl bestKey else none
          | none => none
        else none
      match stage2 with
      | some r => some r
      | none =>
        let partialCandidates :=
          keys.filter (fun k => isSubOf norm k || isSubOf k norm)
        let stage3 : Option α :=
          match pyMaxBy (fun k => ratioQ norm k) partialCandidates with
          | some bestKey =>
            if mkRat 7 10 ≤ ratioQ norm bestKey then dictFind tbl bestKey else none
          | none => none
        match stage3 with
        | some r => some r
        | none => (getCloseMatches1 norm keys (mkRat 7 10)).bind (dictFind tbl)

/-!
### The resolution procedure as the specification describes it

These definitions follow the wording of the claim (spec §4.4 "Resolution
order, first match wins"), for comparison with the embedding of the
source above.  They share the similarity metric (`ratioQ`) and the
first-of-maxima convention with the source, as the spec grants the metric
as a family and fixes no tie-break.
-/

/-- Spec stage 1: "exact lookup of the normalized key in the item
table". -/
def specExactStage {α : Type} (tbl : Tbl α) (norm : Str) : Option α :=
  dictFind tbl norm

/-- Spec stage 2, read literally: "among keys containing all query tokens
of length ≥ 3, the key with the highest string-similarity ratio to the
query, accepted if and only if that ratio ≥ 0.60".  When no token has
length ≥ 3 every key contains all (zero) tokens. -/
def specTokenStage {α : Type} (tbl : Tbl α) (norm : Str) : Option α :=
  let tokens := (splitWs norm).filter (fun t => 3 ≤ t.length)
  let cands := (tbl.map (·.1)).filter (fun k => tokens.all (fun t => isSubOf t k))
  match pyMaxBy (fun k => ratioQ norm k) cands with
  | some best => if mkRat 6 10 ≤ ratioQ norm best then dictFind tbl best else none
  | none => none

/-- Spec stage 2 as the code guards it: applied only when at least one
query token of length ≥ 3 exists. -/
def specTokenStageGuarded {α : Type} (tbl : Tbl α) (norm : Str) : Option α :=
  if ((splitWs norm).filter (fun t => 3 ≤ t.length)).isEmpty then none
  else specTokenStage tbl norm

/-- Spec stage 3: "among keys where the key is a substring of the query
or vice versa, the highest-similarity key, accepted if and only if the
ratio ≥ 0.70". -/
def specSubstrStage {α : Type} (tbl : Tbl α) (norm : Str) : Option α :=
  let cands := (tbl.map (·.1)).filter (fun k => isSubOf norm k || isSubOf k norm)
  match pyMaxBy (fun k => ratioQ norm k) cands with
  | some best => if mkRat 7 10 ≤ ratioQ norm best then dictFind tbl best else none
  | none => none

/-- Spec stage 4: "a global nearest-neighbor fuzzy match over all keys,
accepted if and only if similarity ≥ 0.70" (nearest neighbor by the
`(ratio, key)` order `get_close_matches`' selection induces; the scored
pair is `SequenceMatcher(seq1 = key, seq2 = query)`). -/
def specFuzzyStage {α : Type} (tbl : Tbl α) (norm : Str) : Option α :=
  match pairMax ((tbl.map (·.1)).map (fun k => (ratioQ k norm, k))) with
  | some p => if mkRat 7 10 ≤ p.1 then dictFind tbl p.2 else none
  | none => none

/-- The claim's resolution procedure, literally: the four stages in
order, first success wins, `none` otherwise. -/
def resolveByClaim {α : Type} (tbl : Tbl α) (name : Str) : Option α :=
  let norm := normalize_name_for_match name
  (specExactStage tbl norm).orElse fun _ =>
    (specTokenStage tbl norm).orElse fun _ =>
      (specSubstrStage tbl norm).orElse fun _ =>
        specFuzzyStage tbl norm

/-- The resolution procedure with the token stage guarded as in the code
(the amendment the counterexample forces). -/
def resolveByClaimGuarded {α : Type} (tbl : Tbl α) (name : Str) : Option α :=
  let norm := normalize_name_for_match name
  (specExactStage tbl norm).orElse fun _ =>
    (specTokenStageGuarded tbl norm).orElse fun _ =>
      (specSubstrStage tbl norm).orElse fun _ =>
        specFuzzyStage tbl norm

/-!
### `build_item_lookup` (arc_companion.py:1278-1300)
-/

/-- The loop body of `build_item_lookup` for one enumerated row: a row
with an empty (stripped) name is skipped; otherwise `ITEM_LOOKUP[norm]`
is overwritten with this row and `ITEM_ORDER[norm]` is set only if
absent. -/
def buildStep {α : Type} (st : (Str → Option α) × (Str → Option Nat))
    (p : Nat × (Str × α)) : (Str → Option α) × (Str → Option Nat) :=
  let nm := pyStrip p.2.1
  if nm.isEmpty then st
  else
    let norm := normalize_name_for_match nm
    ((fun k => if k = norm then some p.2.2 else st.1 k),
     (fun k => if k = norm then
        match st.2 k with
        | some i => some i
        | none => some p.1
      else st.2 k))

/-- `build_item_lookup`: fold the enumerated database rows in order,
starting from empty maps. -/
def build_item_lookup {α : Type} (rows : List (Str × α)) :
    (Str → Option α) × (Str → Option Nat) :=
  rows.enum.foldl buildStep ((fun _ => none), (fun _ => none))

/-- Whether an enumerated row competes for `key` in `build_item_lookup`:
its stripped name is non-empty and normalizes to `key`. -/
def entryMatches {α : Type} (key : Str) (p : Nat × (Str × α)) : Bool :=
  !(pyStrip p.2.1).isEmpty &&
    normalize_name_for_match (pyStrip p.2.1) = key

/-- The (index, row) entries of the database whose non-empty stripped name
normalizes to `key` — the entries that compete for that key in
`build_item_lookup`. -/
def keyEntries {α : Type} (rows : List (Str × α)) (key : Str) :
    List (Nat × (Str × α)) :=
  rows.enum.filter (entryMatches key)

/-!
### Result draining in `main_live` (arc_companion.py:3720-3759)
-/

/-- An entry of `ocr_result_queue` (the dict the worker `put`s). -/
structure OcrRes (α : Type) where
  taskId : Int
  name : Option Str
  row : Option α
  panelBox : Option (Nat × Nat × Nat × Nat) := none
  secondaryUsed : Bool := false
  error : Option Str := none

/-- The visible/loop state the drain loop reads and writes:
`latest_result_id` plus the `last_*` fields and overlay visibility. -/
structure DrainSt (α : Type) where
  latest : Int
  lastName : Option Str := none
  lastRow : Option α := none
  lastUsedSecondary : Bool := false
  visible : Bool := false

/-- One iteration of the result-drain loop for one dequeued result
(arc_companion.py:3726-3759).  The boolean is `true` when the result
passed the staleness filter, the gating check and the error check and so
reached the code that mutates the visible state (either recording the
resolved row or clearing it). -/
def drainStep {α : Type} (active : Bool) (st : DrainSt α) (res : OcrRes α) :
    DrainSt α × Bool :=
  if res.taskId < st.latest then (st, false)
  else
    let st := { st with latest := res.taskId }
    if !active then (st, false)
    else if res.error.isSome then (st, false)
    else
      let nameTruthy := match res.name with
        | some n => !n.isEmpty
        | none => false
      if nameTruthy && res.row.isSome then
        ({ st with lastName := res.name, lastRow := res.row,
                   lastUsedSecondary := res.secondaryUsed }, true)
      else
        ({ st with lastName := none, lastRow := none,
                   lastUsedSecondary := false, visible := false }, true)

/-- Drain a queue of results in arrival order, collecting the applied
flags. -/
def drainRun {α : Type} (active : Bool) :
    DrainSt α → List (OcrRes α) → DrainSt α × List Bool
  | st, [] => (st, [])
  | st, r :: rs =>
    let (st', f) := drainStep active st r
    let (st'', fs) := drainRun active st' rs
    (st'', f :: fs)

/-- The task ids of the results a drain run applied, in order. -/
def appliedIds {α : Type} (active : Bool) (st : DrainSt α)
    (rs : List (OcrRes α)) : List Int :=
  (rs.zip (drainRun active st rs).2).filterMap
    (fun p => if p.2 then some p.1.taskId else none)

/-!
### Panel detection `find_tooltip_panel_by_color`
(arc_companion.py:1977-2041)

OpenCV is the boundary: the color mask, morphology and contour extraction
happen inside cv2, and the loop consumes per-contour features — bounding
rectangle, `contourArea`, and the vertex count of the `approxPolyDP`
simplification.  A contour enters the model as that feature tuple.
-/

/-- The per-contour features the filtering loop reads.  `area2` is twice
the `cv2.contourArea` value — an exact integer for the lattice polygons
cv2 extracts, avoiding an inexact `0.5` factor in the model. -/
structure Contour where
  x : Nat
  y : Nat
  w : Nat
  h : Nat
  area2 : Nat
  vertices : Nat

/-- `area = cv2.contourArea(c)` as an exact rational. -/
def areaQ (c : Contour) : ℚ := mkRat c.area2 2

/-- `fill_ratio = area / float(w * h)` as an exact rational. -/
def fillRatio (c : Contour) : ℚ := mkRat c.area2 (2 * (c.w * c.h))

/-- `area * fill_ratio` (the second sort-key component, un-negated) as an
exact rational. -/
def areaFill (c : Contour) : ℚ :=
  mkRat (c.area2 * c.area2) (4 * (c.w * c.h))

/-- The filter chain of the contour loop: positive bounding box, minimum
area, fill ratio ≥ 0.80, maximum simplified vertex count, aspect ratio
`w / h` in `[0.4, 1.8]` (each `continue` of the source negated; the
fill-ratio and aspect bounds are the literals `0.80`, `0.4`, `1.8` of
the source). -/
def contourPasses (minArea : ℚ) (maxVertices : Nat) (c : Contour) :
    Bool :=
  0 < c.w && 0 < c.h &&
    decide (minArea ≤ areaQ c) &&
    decide (mkRat 8 10 ≤ fillRatio c) &&
    c.vertices ≤ maxVertices &&
    decide (mkRat 4 10 ≤ mkRat c.w c.h) &&
    decide (mkRat c.w c.h ≤ mkRat 18 10)

/-- The sort key `(b[0], -(b[4] * b[5]))`: leftmost x first, then larger
`area × fill_ratio` first. -/
def rankKey (c : Contour) : ℚ × ℚ := ((c.x : ℚ), -(areaFill c))

/-- The ascending lexicographic comparison Python's stable sort applies
to the key (the negated second component compared as `area × fill_ratio`
descending). -/
def rankLeB (p q : Contour) : Bool :=
  p.x < q.x || (p.x == q.x && decide (areaFill q ≤ areaFill p))

/-- `find_tooltip_panel_by_color` from the contour features on: filter,
stable-sort by the rank key, return the first candidate's bounding box,
or `none` when no contour survives.  (Defaults in the source:
`min_area = 30000`, `min_fill_ratio = 0.80`, `max_vertices = 6`; the
live loop always calls it with the defaults.) -/
def find_tooltip_panel_by_color (cs : List Contour)
    (minArea : ℚ) (maxVertices : Nat) :
    Option (Nat × Nat × Nat × Nat) :=
  let candidates := cs.filter (contourPasses minArea maxVertices)
  match candidates.mergeSort rankLeB with
  | [] => none
  | c :: _ => some (c.x, c.y, c.x + c.w, c.y + c.h)

/-!
### Name-region cropping `_crop_name_region_from_panel_generic`
(arc_companion.py:2044-2074)

The frame enters as its dimensions, the crop as its rectangle and
resulting size; numpy slicing `arr[l:h]` clips both bounds to the array
extent, which is what decides whether the returned crop is non-empty.
-/

/-- The length of the numpy slice `l:h` of an axis of size `n`. -/
def sliceLen (l h n : Nat) : Nat := min h n - min l n

/-- `_crop_name_region_from_panel_generic` on a `tw × th` frame with panel
box `(px1, py1, px2, py2)`: `none` on an empty frame, otherwise the
reference rectangle scaled by the frame dimensions and clamped to the
frame bounds, together with the dimensions `(width, height)` of the slice
it takes out of the panel-local subimage `frame[py1:py2, px1:px2]`. -/
def crop_name_region_generic (tw th px1 py1 px2 py2 refX refY refW refH : Nat) :
    Option ((Nat × Nat × Nat × Nat) × (Nat × Nat)) :=
  if th = 0 ∨ tw = 0 then none
  else
    let nx1 := refX * tw / 1920
    let ny1 := refY * th / 1080
    let nw := refW * tw / 1920
    let nh := refH * th / 1080
    let nx2 := nx1 + nw
    let ny2 := ny1 + nh
    let nx1 := min nx1 (tw - 1)
    let ny1 := min ny1 (th - 1)
    let nx2 := max (nx1 + 1) (min nx2 tw)
    let ny2 := max (ny1 + 1) (min ny2 th)
    let tooltipW := sliceLen px1 px2 tw
    let tooltipH := sliceLen py1 py2 th
    some ((nx1, ny1, nx2, ny2), (sliceLen nx1 nx2 tooltipW, sliceLen ny1 ny2 tooltipH))

/-!
### ROI-hash throttling: `compute_name_roi_hash` (arc_companion.py:2186-2205)
and the dispatch gate of `main_live` (arc_companion.py:3670-3688)

The `64 × 16` downsampled grayscale enters the model as its pixel list;
the hash (`gray.tobytes()`) is identified with that list, and byte-string
equality with list equality.
-/

/-- The `_cache` dict of `compute_name_roi_hash`. -/
structure HashCache where
  prevGray : Option (List Int) := none
  prevHash : Option (List Int) := none

/-- `np.mean(np.abs(gray - prev_gray))` over equal-shape images, as an
exact rational. -/
def meanAbsDiff (g1 g2 : List Int) : ℚ :=
  mkRat (((g1.zip g2).map (fun p => ((p.1 - p.2).natAbs : Int))).sum) g1.length

/-- `compute_name_roi_hash`: `none` for a missing/empty ROI; otherwise
return the cached anchor hash unchanged when the new gray is within
`diff_threshold` of the cached anchor gray, else re-anchor on the new
gray. -/
def compute_name_roi_hash (cache : HashCache) (gray : Option (List Int))
    (threshold : ℚ) : Option (List Int) × HashCache :=
  match gray with
  | none => (none, cache)
  | some g =>
    match cache.prevGray with
    | some pg =>
      if pg.length = g.length ∧ meanAbsDiff pg g < threshold then
        (cache.prevHash, cache)
      else (some g, ⟨some g, some g⟩)
    | none => (some g, ⟨some g, some g⟩)

/-- The dispatch-relevant state of the capture loop: the hash cache,
`last_name_roi_hash`, `LAST_OCR_TIME`, the free capacity of the (bounded,
lossy) task queue, and — recorded for the staleness analysis — the gray
underlying the most recently dispatched hash. -/
structure CaptureSt where
  cache : HashCache := {}
  lastNameRoiHash : Option (List Int) := none
  lastOcrTime : ℚ := 0
  queueFree : Nat := 4
  lastDispatchedGray : Option (List Int) := none

/-- The OCR-dispatch gate of one capture tick with a detected panel
(arc_companion.py:3670-3688): compute the ROI hash; if it exists and
differs from `last_name_roi_hash` and at least `OCR_MIN_INTERVAL = 0.35`
elapsed since `LAST_OCR_TIME`, record hash and time and enqueue unless
the task queue is full (`put_nowait` / `queue.Full` drops the task).
The boolean reports whether a task was enqueued. -/
def tickDispatch (st : CaptureSt) (gray : Option (List Int)) (now : ℚ) :
    CaptureSt × Bool :=
  let hc := compute_name_roi_hash st.cache gray 3
  let st := { st with cache := hc.2 }
  match hc.1 with
  | none => (st, false)
  | some h =>
    if some h ≠ st.lastNameRoiHash then
      if mkRat 35 100 ≤ now - st.lastOcrTime then
        let st := { st with lastNameRoiHash := some h, lastOcrTime := now }
        if 0 < st.queueFree then
          ({ st with queueFree := st.queueFree - 1,
                     lastDispatchedGray := some h }, true)
        else (st, false)
      else (st, false)
    else (st, false)

/-!
### The OCR worker `ocr_db_worker` (arc_companion.py:2220-2288)

The tesseract engine is the boundary: `ocr_item_lines` enters the model
as a function from a ROI to either the cleaned line list or a raised
exception (`Except.error` carries `str(e)`).  The task queue enters as
the list of tasks the worker will `get`, a `none` entry being the
sentinel.
-/

/-- An entry of `ocr_task_queue` (ROIs of an opaque image type `ρ`). -/
structure OcrTask (ρ : Type) where
  taskId : Int
  roiPrimary : Option ρ
  roiSecondary : Option ρ
  panelBox : Option (Nat × Nat × Nat × Nat) := none

/-- The per-ROI matching loop of the worker: try each OCR line in order
against the database, first match wins. -/
def tryResolveLines {α : Type} (tbl : Tbl α) : List Str → Option (Str × α)
  | [] => none
  | ln :: rest =>
    match find_item_row_by_name tbl ln with
    | some r => some (ln, r)
    | none => tryResolveLines tbl rest

/-- The body of the worker's per-task `try` block: OCR the primary ROI
and match each line; if nothing matched, OCR the secondary ROI and match,
flagging `used_secondary`.  An exception from the OCR engine propagates
to the `except` clause as `Except.error`. -/
def tryOcrTask {ρ α : Type} (ocrLines : ρ → Except Str (List Str))
    (tbl : Tbl α) (t : OcrTask ρ) :
    Except Str (Option Str × Option α × Bool) := do
  let primary ← match t.roiPrimary with
    | some roi => do
      let lines ← ocrLines roi
      pure (tryResolveLines tbl lines)
    | none => pure none
  match primary with
  | some (n, r) => pure (some n, some r, false)
  | none =>
    match t.roiSecondary with
    | some roi => do
      let lines ← ocrLines roi
      match tryResolveLines tbl lines with
      | some (n, r) => pure (some n, some r, true)
      | none => pure (none, none, false)
    | none => pure (none, none, false)

/-- One worker iteration for a non-sentinel task: the `try` block's
outcome becomes a queued result; the `except` clause reports the error in
the result with no resolved name or row. -/
def processOcrTask {ρ α : Type} (ocrLines : ρ → Except Str (List Str))
    (tbl : Tbl α) (t : OcrTask ρ) : OcrRes α :=
  match tryOcrTask ocrLines tbl t with
  | .ok (n, r, u) =>
    { taskId := t.taskId, name := n, row := r, panelBox := t.panelBox,
      secondaryUsed := u, error := none }
  | .error e =>
    { taskId := t.taskId, name := none, row := none, panelBox := t.panelBox,
      secondaryUsed := false, error := some e }

/-- `ocr_db_worker`'s loop over the tasks it dequeues: emit one result
per task, stop at the sentinel `None`.  The boolean is whether the loop
exited (the `finally` then releases the OCR engine via `OCR_API.End()`);
with no sentinel the worker is still blocked on the queue. -/
def ocr_db_worker {ρ α : Type} (ocrLines : ρ → Except Str (List Str))
    (tbl : Tbl α) : List (Option (OcrTask ρ)) → List (OcrRes α) × Bool
  | [] => ([], false)
  | none :: _ => ([], true)
  | some t :: rest =>
    let r := ocr_db_worker ocrLines tbl rest
    (processOcrTask ocrLines tbl t :: r.1, r.2)

/-!
### Overlay placement: `get_helper_gaps` (arc_companion.py:3123-3134) and
the geometry of `show_helper_tooltip` (arc_companion.py:3150-3311)

tkinter and the image cache are the boundary: the two candidate overlay
surfaces (single-column and compact) enter as their pixel dimensions, the
pointer as an optional desktop-global position.  The embedding computes
the final monitor-local top-left corner `(x, y)`.
-/

/-- Python 3 `round` (banker's rounding, half to even), via the reduced
numerator/denominator: `f = ⌊q⌋` and the fractional remainder compared
with 1/2 by cross-multiplication. -/
def pyRound (q : ℚ) : ℤ :=
  let f := q.num.fdiv q.den
  let r2 := 2 * (q.num - f * q.den)
  if r2 < q.den then f
  else if (q.den : ℤ) < r2 then f + 1
  else if f % 2 = 0 then f else f + 1

/-- `get_helper_gaps`: the reference gaps `(4, 46)` scaled from the
1920×1080 reference to the game monitor (falling back to the reference
size when a screen dimension is 0), each at least 1. -/
def get_helper_gaps (screenW screenH : ℤ) : ℤ × ℤ :=
  let w := if screenW = 0 then 1920 else screenW
  let h := if screenH = 0 then 1080 else screenH
  let gapX := pyRound (mkRat (4 * w) 1920)
  let gapY := pyRound (mkRat (46 * h) 1080)
  (max gapX 1, max gapY 1)

/-- The `horizontal_distance` helper of `show_helper_tooltip`. -/
def horizontalDistance (mx tx tw : ℤ) : ℤ :=
  if mx < tx then tx - mx
  else if tx + tw < mx then mx - (tx + tw)
  else 0

/-- The placement geometry of `show_helper_tooltip`
(arc_companion.py:3196-3311), for a panel box `(gx1, gy1, gx2, gy2)` in
monitor-local coordinates: choose the overlay surface (single-column
`wF × hF` if it fits to the right, else compact `wC × hC`), compute the
vertical position (no extra gap on the secondary-crop path), choose the
right anchor, left anchor or fallback x position — the pointer picks the
farther side when the right side fits — clamp to the screen, and, when
neither the right anchor fit nor the left anchor was chosen and the
overlay would sit left of the pointer, run the under/above pointer-
avoidance fallback.  `mouse` is the pointer in desktop-global
coordinates; `monLeft`/`monTop` the capture origin. -/
def show_helper_tooltip_pos (screenW screenH : ℤ) (gapX gapY : ℤ)
    (wF hF wC hC : ℤ) (gx1 gy1 gx2 gy2 : ℤ) (usedSecondary : Bool)
    (monLeft monTop : ℤ) (mouse : Option (ℤ × ℤ)) : ℤ × ℤ :=
  let margin : ℤ := 10
  let minGap : ℤ := 4
  let sideGap := max gapX minGap
  let rightFitsSingle := gx2 + sideGap + wF ≤ screenW - margin
  let w := if rightFitsSingle then wF else wC
  let h := if rightFitsSingle then hF else hC
  let y := if usedSecondary then gy1 else gy1 + gapY
  let y := if y < margin then margin else y
  let y := if screenH - margin < y + h then screenH - h - margin else y
  let y := if y < margin then margin else y
  let xRight := gx2 + sideGap
  let xLeft := gx1 - sideGap - w
  let rightFits := xRight + w ≤ screenW - margin
  let mouseLocal := mouse.map (fun p => (p.1 - monLeft, p.2 - monTop))
  let panelCenterX := gx1 + (gx2 - gx1).fdiv 2
  let xpl : ℤ × Bool :=
    if rightFits then
      match mouseLocal with
      | some (mx, _) =>
        let dRight := horizontalDistance mx xRight w
        let dLeft := horizontalDistance mx xLeft w
        (if dLeft ≤ dRight then xRight else xLeft, false)
      | none => (xRight, false)
    else
      match mouseLocal with
      | some (mx, _) =>
        if panelCenterX < mx then (xLeft, true) else (margin, false)
      | none => (panelCenterX - w.fdiv 2, false)
  let x := max 0 (min (screenW - w) xpl.1)
  let y := max 0 (min (screenH - h) y)
  if xpl.2 || rightFits then (x, y)
  else
    match mouseLocal with
    | none => (x, y)
    | some (mx, my) =>
      if x ≤ mx then
        let clampToScreen := fun (cx cy : ℤ) =>
          (max margin (min (screenW - margin - w) cx),
           max margin (min (screenH - margin - h) cy))
        let tryPlace := fun (cx cy : ℤ) =>
          let c := clampToScreen cx cy
          if c.1 ≤ mx ∧ mx ≤ c.1 + w ∧ c.2 ≤ my ∧ my ≤ c.2 + h then none
          else some (c.1 - 1, c.2)
        let alignX := gx1
        let underY := gy2 + sideGap
        let aboveY := gy1 - sideGap - h
        let fitsUnder := underY + h ≤ screenH - margin
        let fitsAbove := margin ≤ aboveY
        let p1 := if fitsUnder then tryPlace alignX underY else none
        match p1 with
        | some p => p
        | none =>
          let p2 := if fitsAbove then tryPlace alignX aboveY else none
          match p2 with
          | some p => p
          | none =>
            match tryPlace alignX underY with
            | some p => p
            | none => (x, y)
      else (x, y)

/-!
### Invariants for the `find_longest_match` analysis

Proof-side predicates stating what the DP phase and extension loops of
`find_longest_match` guarantee: the reported block lies inside the window
and its two segments agree character by character.
-/

def MatchSeg (a b : Str) (i j k : Nat) : Prop :=
  ∀ d, d < k → ∃ c, a.get? (i + d) = some c ∧ b.get? (j + d) = some c

def FlmOK (a b : Str) (alo ahi blo bhi : Nat) (r : Nat × Nat × Nat) : Prop :=
  alo ≤ r.1 ∧ blo ≤ r.2.1 ∧ r.1 + r.2.2 ≤ ahi ∧ r.2.1 + r.2.2 ≤ bhi ∧
    MatchSeg a b r.1 r.2.1 r.2.2

def RowNext (a b : Str) (alo blo bhi i : Nat) (f : Nat → Nat) : Prop :=
  ∀ j, 0 < f j → ∃ sa sb, sa + f j = i ∧ sb + f j = j + 1 ∧ alo ≤ sa ∧
    blo ≤ sb ∧ j < bhi ∧ MatchSeg a b sa sb (f j)

/-!
### Structural lemmas about the normalization pipeline

These support the analysis of a second `normalize_name_for_match` pass
over an already-normalized string.
-/

/-- A string neither starts nor ends with whitespace. -/
def noEdgeSpace (v : Str) : Prop :=
  (∀ c, v.head? = some c → isPySpace c = false) ∧
    (∀ c, v.getLast? = some c → isPySpace c = false)

theorem noEdgeSpace_nil : noEdgeSpace [] := by
  constructor <;> intro c h <;> simp [List.head?, List.getLast?] at h

theorem collapseWsAux_idem (v : Str) :
    ∀ b, collapseWsAux (collapseWsAux v b) b = collapseWsAux v b := by
  induction v with
  | nil => intro b; rfl
  | cons c rest ih =>
    intro b
    by_cases hc : isPySpace c
    · by_cases hb : b
      · subst hb; simp only [collapseWsAux, hc, if_true, ih]
      · simp only [Bool.not_eq_true] at hb; subst hb
        simp only [collapseWsAux, hc, if_true, if_false, Bool.false_eq_true]
        have hsp : isPySpace ' ' = true := by decide
        simp only [collapseWsAux, hsp, if_true, Bool.false_eq_true, if_false, ih]
    · simp only [collapseWsAux, hc, Bool.false_eq_true, if_false, ih]

/-- `re.sub(r"\s+", " ", ·)` is idempotent. -/
theorem collapseWs_idem (v : Str) : collapseWs (collapseWs v) = collapseWs v :=
  collapseWsAux_idem v false

theorem filter_collapseWsAux (v : Str) :
    ∀ b, (collapseWsAux v b).filter (fun c => !isPySpace c) =
      v.filter (fun c => !isPySpace c) := by
  induction v with
  | nil => intro b; rfl
  | cons c rest ih =>
    intro b
    by_cases hc : isPySpace c
    · by_cases hb : b
      · subst hb
        simp only [collapseWsAux, hc, if_true, ih, List.filter_cons, hc,
          Bool.not_true, Bool.false_eq_true, if_false]
      · simp only [Bool.not_eq_true] at hb; subst hb
        simp only [collapseWsAux, hc, if_true, Bool.false_eq_true, if_false,
          List.filter_cons]
        have hsp : (!isPySpace ' ') = false := by decide
        simp only [hsp, Bool.false_eq_true, if_false, ih, Bool.not_eq_true',
          hc, Bool.not_true]
    · simp only [collapseWsAux, hc, Bool.false_eq_true, if_false,
        List.filter_cons, hc, Bool.not_false, if_true, ih]

/-- Collapsing whitespace leaves the non-whitespace characters alone. -/
theorem filter_collapseWs (v : Str) :
    (collapseWs v).filter (fun c => !isPySpace c) =
      v.filter (fun c => !isPySpace c) :=
  filter_collapseWsAux v false

theorem mem_collapseWsAux {c : Char} :
    ∀ (v : Str) (b : Bool), c ∈ collapseWsAux v b → c ∈ v ∨ c = ' '
  | [], b, h => by simp [collapseWsAux] at h
  | d :: rest, b, h => by
    by_cases hd : isPySpace d
    · by_cases hb : b
      · subst hb
        simp only [collapseWsAux, hd, if_true] at h
        rcases mem_collapseWsAux rest true h with h' | h'
        · exact Or.inl (List.mem_cons_of_mem _ h')
        · exact Or.inr h'
      · simp only [Bool.not_eq_true] at hb; subst hb
        simp only [collapseWsAux, hd, if_true, Bool.false_eq_true, if_false,
          List.mem_cons] at h
        rcases h with h' | h'
        · exact Or.inr h'
        · rcases mem_collapseWsAux rest true h' with h'' | h''
          · exact Or.inl (List.mem_cons_of_mem _ h'')
          · exact Or.inr h''
    · simp only [collapseWsAux, hd, Bool.false_eq_true, if_false,
        List.mem_cons] at h
      rcases h with h' | h'
      · exact Or.inl (h' ▸ List.mem_cons_self _ _)
      · rcases mem_collapseWsAux rest false h' with h'' | h''
        · exact Or.inl (List.mem_cons_of_mem _ h'')
        · exact Or.inr h''

theorem mem_collapseWs {c : Char} {v : Str} (h : c ∈ collapseWs v) :
    c ∈ v ∨ c = ' ' :=
  mem_collapseWsAux v false h

theorem char_toNat_ofNat {n : Nat} (h : n < 55296) :
    (Char.ofNat n).toNat = n := by
  have hvalid : Nat.isValidChar n := Or.inl h
  simp only [Char.ofNat, hvalid, dif_pos]
  rfl

theorem toLower_toLower (c : Char) : c.toLower.toLower = c.toLower := by
  unfold Char.toLower
  by_cases h : c.toNat ≥ 65 ∧ c.toNat ≤ 90
  · simp only [h, if_true, if_pos (And.intro trivial trivial)]
    have hv : (Char.ofNat (c.toNat + 32)).toNat = c.toNat + 32 :=
      char_toNat_ofNat (by omega)
    rw [if_neg]
    rw [hv]; omega
  · simp only [h, if_false]

theorem toLower_eq_self_of_big {z c : Char} (h : z.toLower = c)
    (hc : c.toNat < 97) : z = c := by
  unfold Char.toLower at h
  by_cases hz : z.toNat ≥ 65 ∧ z.toNat ≤ 90
  · exfalso
    rw [if_pos hz] at h
    have hv : (Char.ofNat (z.toNat + 32)).toNat = z.toNat + 32 :=
      char_toNat_ofNat (by omega)
    rw [← h] at hc
    omega
  · rwa [if_neg hz] at h

theorem isPySpace_false_of_ge {c : Char} (h : 33 ≤ c.toNat) :
    isPySpace c = false := by
  unfold isPySpace
  have h1 : c ≠ ' ' := fun e => absurd h (by subst e; decide)
  have h2 : c ≠ '\t' := fun e => absurd h (by subst e; decide)
  have h3 : c ≠ '\n' := fun e => absurd h (by subst e; decide)
  have h4 : c ≠ '\r' := fun e => absurd h (by subst e; decide)
  have h5 : c ≠ '\x0b' := fun e => absurd h (by subst e; decide)
  have h6 : c ≠ '\x0c' := fun e => absurd h (by subst e; decide)
  simp [h1, h2, h3, h4, h5, h6]

theorem isPySpace_toLower {c : Char} (h : isPySpace c = false) :
    isPySpace c.toLower = false := by
  unfold Char.toLower
  by_cases hc : c.toNat ≥ 65 ∧ c.toNat ≤ 90
  · rw [if_pos hc]
    exact isPySpace_false_of_ge (by rw [char_toNat_ofNat (by omega)]; omega)
  · rwa [if_neg hc]

theorem isPySpace_transShort {c : Char} (h : isPySpace c = false) :
    isPySpace (transShort c) = false := by
  unfold transShort
  by_cases hc : c = '0'
  · rw [if_pos hc]; decide
  · rwa [if_neg hc]

theorem isPySpace_transLong {c : Char} (h : isPySpace c = false) :
    isPySpace (transLong c) = false := by
  unfold transLong
  by_cases hc : c = 'I' ∨ c = '|' ∨ c = '1'
  · have : (c = 'I' || c = '|' || c = '1') = true := by
      rcases hc with h | h | h <;> simp [h]
    rw [if_pos this]; decide
  · have : (c = 'I' || c = '|' || c = '1') = false := by
      push_neg at hc
      simp [hc.1, hc.2.1, hc.2.2]
    rw [if_neg (by simp [this])]
    by_cases h0 : c = '0'
    · rw [if_pos h0]; decide
    · rwa [if_neg h0]

theorem isDigit_not_pySpace {c : Char} (h : c.isDigit = true) :
    isPySpace c = false := by
  have : 48 ≤ c.toNat := by
    simp only [Char.isDigit, decide_eq_true_eq, Bool.and_eq_true] at h
    exact h.1
  exact isPySpace_false_of_ge (by omega)

theorem head?_dropWhile {p : Char → Bool} :
    ∀ (l : Str) (c : Char), (l.dropWhile p).head? = some c → p c = false
  | [], c, h => by simp [List.dropWhile] at h
  | d :: rest, c, h => by
    by_cases hd : p d
    · rw [List.dropWhile_cons_of_pos hd] at h
      exact head?_dropWhile rest c h
    · rw [List.dropWhile_cons_of_neg hd] at h
      simp only [List.head?_cons, Option.some.injEq] at h
      subst h
      exact Bool.eq_false_iff.mpr hd

theorem getLast?_dropWhile {p : Char → Bool} :
    ∀ (l : Str), l.dropWhile p ≠ [] → (l.dropWhile p).getLast? = l.getLast?
  | [], h => by simp [List.dropWhile] at h
  | d :: rest, h => by
    by_cases hd : p d
    · rw [List.dropWhile_cons_of_pos hd] at h ⊢
      rcases rest with _ | ⟨e, rest'⟩
      · simp [List.dropWhile] at h
      · rw [getLast?_dropWhile (e :: rest') h, List.getLast?_cons_cons]
    · rw [List.dropWhile_cons_of_neg hd]

theorem pyStrip_noEdgeSpace (s : Str) : noEdgeSpace (pyStrip s) := by
  unfold pyStrip noEdgeSpace
  constructor
  · intro c h
    rw [List.head?_reverse] at h
    set y := (s.dropWhile isPySpace).reverse.dropWhile isPySpace with hy
    have hne : y ≠ [] := by
      intro e; rw [e] at h; simp at h
    rw [getLast?_dropWhile _ hne, List.getLast?_reverse] at h
    exact head?_dropWhile _ _ h
  · intro c h
    rw [List.getLast?_reverse] at h
    exact head?_dropWhile _ _ h

theorem dropWhile_eq_self_of_head {p : Char → Bool} {l : Str}
    (h : ∀ c, l.head? = some c → p c = false) : l.dropWhile p = l := by
  cases l with
  | nil => rfl
  | cons c rest => exact List.dropWhile_cons_of_neg (by simp [h c rfl])

theorem pyStrip_eq_self {v : Str} (h : noEdgeSpace v) : pyStrip v = v := by
  unfold pyStrip
  rw [dropWhile_eq_self_of_head h.1]
  rw [dropWhile_eq_self_of_head (fun c hc => h.2 c (by rwa [List.head?_reverse] at hc))]
  exact List.reverse_reverse v

theorem noEdgeSpace_append_digits {v d : Str} (hv : noEdgeSpace v)
    (hd : d ≠ []) (hds : ∀ c ∈ d, isPySpace c = false) (n : Nat) :
    noEdgeSpace (v.take n ++ d) := by
  constructor
  · intro c h
    by_cases hvt : v.take n = []
    · rw [hvt, List.nil_append] at h
      exact hds c (List.mem_of_mem_head? h)
    · rw [List.head?_append_of_ne_nil _ hvt] at h
      apply hv.1
      cases v with
      | nil => simp at hvt
      | cons a rest =>
        cases n with
        | zero => simp at hvt
        | succ m => simp only [List.take_succ_cons, List.head?_cons] at h ⊢; exact h
  · intro c h
    rw [List.getLast?_append_of_ne_nil _ hd] at h
    exact hds c (List.mem_of_mem_getLast? h)

theorem romanLookup_digits {t d : Str} (h : romanLookup t = some d) :
    d ≠ [] ∧ ∀ c ∈ d, isPySpace c = false := by
  unfold romanLookup at h
  split_ifs at h <;> cases h <;> constructor <;> simp <;> decide

theorem tokenClean_ne_nil {t : Str} (h : t ≠ []) : tokenClean t ≠ [] := by
  unfold tokenClean
  simp [h]

theorem romanDigitStep_noEdgeSpace {v : Str} (hv : noEdgeSpace v) :
    noEdgeSpace (romanDigitStep v) := by
  simp only [romanDigitStep]
  by_cases h1 : v.isEmpty
  · simp only [h1, if_true]; exact hv
  · simp only [h1, Bool.false_eq_true, if_false]
    by_cases h2 : (!(trailingWordRun v).isEmpty &&
        ((trailingWordRun v).all isRomanChar ||
          (trailingWordRun v).all Char.isDigit)) = true
    · simp only [h2, if_true]
      have htne : trailingWordRun v ≠ [] := by
        rcases (Bool.and_eq_true _ _).mp h2 with ⟨ha, _⟩
        intro e
        rw [e] at ha
        simp at ha
      rcases hl : romanLookup (tokenClean (trailingWordRun v)) with _ | d
      · simp only [hl]
        by_cases h3 : (tokenClean (trailingWordRun v)).all Char.isDigit = true
        · simp only [h3, if_true]
          apply noEdgeSpace_append_digits hv (tokenClean_ne_nil htne)
          intro c hc
          exact isDigit_not_pySpace (List.all_eq_true.mp h3 c hc)
        · simp only [h3, Bool.false_eq_true, if_false]; exact hv
      · simp only [hl]
        obtain ⟨hd1, hd2⟩ := romanLookup_digits hl
        exact noEdgeSpace_append_digits hv hd1 hd2 _
    · simp only [h2, Bool.false_eq_true, if_false]; exact hv

theorem map_noEdgeSpace {f : Char → Char}
    (hf : ∀ c, isPySpace c = false → isPySpace (f c) = false) {v : Str}
    (hv : noEdgeSpace v) : noEdgeSpace (v.map f) := by
  constructor
  · intro c h
    rw [List.head?_map] at h
    rcases hh : v.head? with _ | e
    · rw [hh] at h; cases h
    · rw [hh] at h; cases h
      exact hf e (hv.1 e hh)
  · intro c h
    rw [List.getLast?_map] at h
    rcases hh : v.getLast? with _ | e
    · rw [hh] at h; cases h
    · rw [hh] at h; cases h
      exact hf e (hv.2 e hh)

theorem collapseWsAux_cons (d : Char) (v : Str) (b : Bool) :
    collapseWsAux (d :: v) b =
      if isPySpace d then
        (if b then collapseWsAux v true else ' ' :: collapseWsAux v true)
      else d :: collapseWsAux v false := rfl

theorem getLast?_collapseWsAux {c : Char} (hc : isPySpace c = false) :
    ∀ (v : Str) (b : Bool), v.getLast? = some c →
      (collapseWsAux v b).getLast? = some c
  | [], b, h => by simp at h
  | [d], b, h => by
    simp only [List.getLast?_singleton, Option.some.injEq] at h
    subst h
    rw [collapseWsAux_cons, if_neg (by simp [hc])]
    rfl
  | d :: e :: rest, b, h => by
    rw [List.getLast?_cons_cons] at h
    have ih := getLast?_collapseWsAux hc (e :: rest)
    rw [collapseWsAux_cons]
    by_cases hd : isPySpace d
    · rw [if_pos hd]
      by_cases hb : b
      · subst hb
        rw [if_pos rfl]
        exact ih true h
      · simp only [Bool.not_eq_true] at hb; subst hb
        rw [if_neg (by simp)]
        have := ih true h
        rcases hcc : collapseWsAux (e :: rest) true with _ | ⟨x, xs⟩
        · rw [hcc] at this; simp at this
        · rw [hcc] at this
          rw [List.getLast?_cons_cons]
          exact this
    · rw [if_neg hd]
      have := ih false h
      rcases hcc : collapseWsAux (e :: rest) false with _ | ⟨x, xs⟩
      · rw [hcc] at this; simp at this
      · rw [hcc] at this
        rw [List.getLast?_cons_cons]
        exact this

theorem collapseWs_noEdgeSpace {v : Str} (hv : noEdgeSpace v) :
    noEdgeSpace (collapseWs v) := by
  constructor
  · intro c h
    cases v with
    | nil => simp [collapseWs, collapseWsAux] at h
    | cons d rest =>
      have hd : isPySpace d = false := hv.1 d rfl
      simp only [collapseWs, collapseWsAux, hd, Bool.false_eq_true, if_false,
        List.head?_cons, Option.some.injEq] at h
      subst h; exact hd
  · intro c h
    rcases hh : v.getLast? with _ | e
    · have : v = [] := by cases v with
        | nil => rfl
        | cons x xs => rw [List.getLast?_eq_getLast _ (by simp)] at hh; cases hh
      rw [this] at h
      simp [collapseWs, collapseWsAux] at h
    · have he := hv.2 e hh
      have := getLast?_collapseWsAux he v false hh
      rw [collapseWs] at h
      rw [this] at h
      cases h; exact he

theorem isPySpace_transShort_eq (c : Char) :
    isPySpace (transShort c) = isPySpace c := by
  unfold transShort
  by_cases h : c = '0'
  · subst h; decide
  · rw [if_neg h]

theorem isPySpace_transLong_eq (c : Char) :
    isPySpace (transLong c) = isPySpace c := by
  unfold transLong
  by_cases h : (c = 'I' || c = '|' || c = '1') = true
  · rw [if_pos h]
    simp only [Bool.or_eq_true, decide_eq_true_eq] at h
    rcases h with (h | h) | h <;> subst h <;> decide
  · rw [if_neg (by simp_all)]
    by_cases h0 : c = '0'
    · subst h0; decide
    · rw [if_neg h0]

theorem isPySpace_toLower_eq (c : Char) :
    isPySpace c.toLower = isPySpace c := by
  unfold Char.toLower
  by_cases hc : c.toNat ≥ 65 ∧ c.toNat ≤ 90
  · rw [if_pos hc]
    rw [isPySpace_false_of_ge (by rw [char_toNat_ofNat (by omega)]; omega),
      isPySpace_false_of_ge (by omega)]
  · rw [if_neg hc]

theorem toLower_eq_cases {z c : Char} (h : z.toLower = c) :
    z = c ∨ (65 ≤ z.toNat ∧ z.toNat ≤ 90 ∧ c.toNat = z.toNat + 32) := by
  unfold Char.toLower at h
  by_cases hz : z.toNat ≥ 65 ∧ z.toNat ≤ 90
  · rw [if_pos hz] at h
    right
    refine ⟨hz.1, hz.2, ?_⟩
    rw [← h, char_toNat_ofNat (by omega)]
  · rw [if_neg hz] at h
    exact Or.inl h

theorem transShort_ne_zero (c : Char) : transShort c ≠ '0' := by
  unfold transShort
  by_cases h : c = '0'
  · rw [if_pos h]; decide
  · rw [if_neg h]; exact h

theorem transLong_not_special (c : Char) :
    transLong c ≠ 'I' ∧ transLong c ≠ '|' ∧ transLong c ≠ '1' ∧
      transLong c ≠ '0' := by
  unfold transLong
  by_cases h : (c = 'I' || c = '|' || c = '1') = true
  · rw [if_pos h]; refine ⟨by decide, by decide, by decide, by decide⟩
  · rw [if_neg (by simp_all)]
    simp only [Bool.or_eq_true, decide_eq_true_eq] at h
    push_neg at h
    by_cases h0 : c = '0'
    · rw [if_pos h0]; refine ⟨by decide, by decide, by decide, by decide⟩
    · rw [if_neg h0]
      exact ⟨h.1.1, h.1.2, h.2, h0⟩

theorem map_id_of_mem {f : Char → Char} :
    ∀ {l : Str}, (∀ c ∈ l, f c = c) → l.map f = l
  | [], _ => rfl
  | c :: rest, h => by
    simp only [List.map_cons, h c (List.mem_cons_self c rest)]
    rw [map_id_of_mem (fun d hd => h d (List.mem_cons_of_mem c hd))]

theorem normalize_eq (s : Str) :
    normalize_name_for_match s =
      collapseWs
        ((if ((romanDigitStep (pyStrip s)).filter
              (fun c => !isPySpace c)).length ≤ 3
          then (romanDigitStep (pyStrip s)).map transShort
          else (romanDigitStep (pyStrip s)).map transLong).map Char.toLower) :=
  rfl

theorem filter_nonspace_map {f : Char → Char}
    (hf : ∀ c, isPySpace (f c) = isPySpace c) (l : Str) :
    ((l.map f).filter (fun c => !isPySpace c)).length =
      (l.filter (fun c => !isPySpace c)).length := by
  rw [List.filter_map, List.length_map]
  congr 1
  apply List.filter_congr
  intro x _
  simp only [Function.comp_apply, hf x]

theorem mem_normalize_image {c : Char} {l : Str} {f : Char → Char}
    (hmem : c ∈ collapseWs ((l.map f).map Char.toLower)) :
    (∃ d, c = Char.toLower (f d)) ∨ c = ' ' := by
  rcases mem_collapseWs hmem with h | h
  · rcases List.mem_map.mp h with ⟨z, hz, rfl⟩
    rcases List.mem_map.mp hz with ⟨d, _, rfl⟩
    exact Or.inl ⟨d, rfl⟩
  · exact Or.inr h

theorem toLower_fix_of_image {c : Char}
    (h : (∃ d : Char, c = Char.toLower d) ∨ c = ' ') :
    Char.toLower c = c := by
  rcases h with ⟨d, rfl⟩ | rfl
  · exact toLower_toLower d
  · decide

theorem transShort_fix_of_image {c : Char}
    (h : (∃ d, c = Char.toLower (transShort d)) ∨ c = ' ') :
    transShort c = c := by
  have hc : c ≠ '0' := by
    rcases h with ⟨d, hd⟩ | rfl
    · intro e
      rcases toLower_eq_cases hd.symm with hz | ⟨_, _, hz⟩
      · exact transShort_ne_zero d (hz.trans e)
      · rw [e] at hz
        simp only [show ('0').toNat = 48 from rfl] at hz
        omega
    · decide
  unfold transShort
  rw [if_neg hc]

theorem transLong_fix_of_image {c : Char}
    (h : (∃ d, c = Char.toLower (transLong d)) ∨ c = ' ') :
    transLong c = c := by
  have hc : c ≠ 'I' ∧ c ≠ '|' ∧ c ≠ '1' ∧ c ≠ '0' := by
    rcases h with ⟨d, hd⟩ | rfl
    · obtain ⟨nI, nP, n1, n0⟩ := transLong_not_special d
      rcases toLower_eq_cases hd.symm with hz | ⟨hlo, hhi, hz⟩
      · refine ⟨?_, ?_, ?_, ?_⟩ <;> intro e
        · have : Char.toLower c = c := by rw [hd]; exact toLower_toLower _
          rw [e] at this; exact absurd this (by decide)
        · exact nP (hz.trans e)
        · exact n1 (hz.trans e)
        · exact n0 (hz.trans e)
      · refine ⟨?_, ?_, ?_, ?_⟩ <;> intro e <;> rw [e] at hz <;>
          revert hz <;> simp only [show ('I').toNat = 73 from rfl,
            show ('|').toNat = 124 from rfl, show ('1').toNat = 49 from rfl,
            show ('0').toNat = 48 from rfl] <;> omega
    · refine ⟨by decide, by decide, by decide, by decide⟩
  unfold transLong
  rw [if_neg (by simp [hc.1, hc.2.1, hc.2.2.1]), if_neg hc.2.2.2]

theorem normalize_of_fixed_parts {t : Str}
    (hnes : noEdgeSpace t)
    (hroman : romanDigitStep t = t)
    (htrans : (if (t.filter (fun c => !isPySpace c)).length ≤ 3
               then t.map transShort else t.map transLong) = t)
    (hlower : t.map Char.toLower = t)
    (hcollapse : collapseWs t = t) :
    normalize_name_for_match t = t := by
  rw [normalize_eq, pyStrip_eq_self hnes, hroman, htrans, hlower, hcollapse]

/-- C2 counterexample: normalization is not idempotent.  On `"ab 11"` the
first pass folds the trailing `11` to `ll` (`1 → l` for a core longer
than 3), and the second pass reads that `ll` as the roman numeral II:
`normalize("ab 11") = "ab ll"` but `normalize("ab ll") = "ab 2"`. -/
theorem normalize_not_idempotent_on_ab11 :
    normalize_name_for_match
        (normalize_name_for_match ('a' :: 'b' :: ' ' :: '1' :: '1' :: [])) ≠
      normalize_name_for_match ('a' :: 'b' :: ' ' :: '1' :: '1' :: []) := by
  decide

/-- C2 (amended): `normalize_name_for_match` is idempotent on every input
whose normalized form is left unchanged by the trailing roman-numeral /
integer rewriting step — the only stage that can act a second time (the
counterexample shows it can, when the digit fold manufactures a trailing
roman-letter word such as `ll`). -/
theorem normalize_idempotent_on_roman_fixed_points (s : Str)
    (h : romanDigitStep (normalize_name_for_match s) =
      normalize_name_for_match s) :
    normalize_name_for_match (normalize_name_for_match s) =
      normalize_name_for_match s := by
  have hnes1 := romanDigitStep_noEdgeSpace (pyStrip_noEdgeSpace s)
  set s1 := romanDigitStep (pyStrip s) with hs1
  by_cases hcore : (s1.filter (fun c => !isPySpace c)).length ≤ 3
  · have htEq : normalize_name_for_match s =
        collapseWs ((s1.map transShort).map Char.toLower) := by
      rw [normalize_eq, ← hs1, if_pos hcore]
    set t := normalize_name_for_match s with ht
    have hmem : ∀ c ∈ t, (∃ d, c = Char.toLower (transShort d)) ∨ c = ' ' :=
      fun c hc => mem_normalize_image (htEq ▸ hc)
    have hcore2 : (t.filter (fun c => !isPySpace c)).length ≤ 3 := by
      rw [htEq, filter_collapseWs,
        filter_nonspace_map isPySpace_toLower_eq,
        filter_nonspace_map isPySpace_transShort_eq]
      exact hcore
    apply normalize_of_fixed_parts
    · rw [htEq]
      exact collapseWs_noEdgeSpace
        (map_noEdgeSpace (fun c => isPySpace_toLower)
          (map_noEdgeSpace (fun c => isPySpace_transShort) hnes1))
    · exact h
    · rw [if_pos hcore2]
      exact map_id_of_mem (fun c hc => transShort_fix_of_image (hmem c hc))
    · apply map_id_of_mem
      intro c hc
      apply toLower_fix_of_image
      rcases hmem c hc with ⟨d, hd⟩ | hd
      · exact Or.inl ⟨transShort d, hd⟩
      · exact Or.inr hd
    · rw [htEq]; exact collapseWs_idem _
  · have htEq : normalize_name_for_match s =
        collapseWs ((s1.map transLong).map Char.toLower) := by
      rw [normalize_eq, ← hs1, if_neg hcore]
    set t := normalize_name_for_match s with ht
    have hmem : ∀ c ∈ t, (∃ d, c = Char.toLower (transLong d)) ∨ c = ' ' :=
      fun c hc => mem_normalize_image (htEq ▸ hc)
    have hcore2 : ¬(t.filter (fun c => !isPySpace c)).length ≤ 3 := by
      rw [htEq, filter_collapseWs,
        filter_nonspace_map isPySpace_toLower_eq,
        filter_nonspace_map isPySpace_transLong_eq]
      exact hcore
    apply normalize_of_fixed_parts
    · rw [htEq]
      exact collapseWs_noEdgeSpace
        (map_noEdgeSpace (fun c => isPySpace_toLower)
          (map_noEdgeSpace (fun c => isPySpace_transLong) hnes1))
    · exact h
    · rw [if_neg hcore2]
      exact map_id_of_mem (fun c hc => transLong_fix_of_image (hmem c hc))
    · apply map_id_of_mem
      intro c hc
      apply toLower_fix_of_image
      rcases hmem c hc with ⟨d, hd⟩ | hd
      · exact Or.inl ⟨transLong d, hd⟩
      · exact Or.inr hd
    · rw [htEq]; exact collapseWs_idem _

/-- C2 witness: `"Extended Light Mag II"` normalizes to
`"extended light mag 2"`, which the roman/integer step leaves unchanged,
so the amended idempotence theorem applies to it. -/
theorem normalize_idempotent_on_roman_fixed_points_witness :
    normalize_name_for_match
        (normalize_name_for_match "Extended Light Mag II".data) =
      normalize_name_for_match "Extended Light Mag II".data :=
  normalize_idempotent_on_roman_fixed_points "Extended Light Mag II".data
    (by decide)

/-- C3 counterexample: the two raw strings do not normalize to the same
key.  `"Extended Light Mag II"` becomes `"extended light mag 2"`, but in
`"EXTENDED LIGHT MAG 2"` the upper-case `I` of `LIGHT` falls under the
`I → l` fold (the trailing digit is already a digit), giving
`"extended llght mag 2"`. -/
theorem mag_queries_normalize_differently :
    normalize_name_for_match "Extended Light Mag II".data ≠
      normalize_name_for_match "EXTENDED LIGHT MAG 2".data := by
  decide

set_option maxRecDepth 8000 in
/-- C3 (amended): `"Extended Light Mag II"` and `"EXTENDED LIGHT MAG 2"`
normalize to the distinct keys `"extended light mag 2"` and
`"extended llght mag 2"`, yet against a table holding the row whose name
normalizes to `"extended light mag 2"` both still resolve to that same
row — the first via exact lookup, the second via the global fuzzy stage
(similarity 19/20 ≥ 0.70). -/
theorem mag_queries_resolve_to_same_row :
    normalize_name_for_match "Extended Light Mag II".data =
        "extended light mag 2".data ∧
      normalize_name_for_match "EXTENDED LIGHT MAG 2".data =
        "extended llght mag 2".data ∧
      find_item_row_by_name [("extended light mag 2".data, 0)]
        "Extended Light Mag II".data = some 0 ∧
      find_item_row_by_name [("extended light mag 2".data, 0)]
        "EXTENDED LIGHT MAG 2".data = some 0 := by
  refine ⟨by decide, by decide, by decide, by decide⟩

theorem drainStep_applied_not_stale {α : Type} {active : Bool}
    {st : DrainSt α} {res : OcrRes α}
    (h : (drainStep active st res).2 = true) : st.latest ≤ res.taskId := by
  by_cases hlt : res.taskId < st.latest
  · exfalso
    unfold drainStep at h
    rw [if_pos hlt] at h
    cases h
  · omega

theorem drainStep_latest_of_not_stale {α : Type} (active : Bool)
    (st : DrainSt α) (res : OcrRes α) (hlt : ¬res.taskId < st.latest) :
    (drainStep active st res).1.latest = res.taskId := by
  unfold drainStep
  rw [if_neg hlt]
  by_cases ha : !active
  · rw [if_pos ha]
  · rw [if_neg ha]
    by_cases he : res.error.isSome
    · rw [if_pos he]
    · rw [if_neg he]
      by_cases hn : ((match res.name with
          | some n => !n.isEmpty
          | none => false) && res.row.isSome) = true
      · rw [if_pos hn]
      · rw [if_neg hn]

theorem drainStep_latest_mono {α : Type} (active : Bool)
    (st : DrainSt α) (res : OcrRes α) :
    st.latest ≤ (drainStep active st res).1.latest := by
  by_cases hlt : res.taskId < st.latest
  · unfold drainStep
    rw [if_pos hlt]
  · rw [drainStep_latest_of_not_stale active st res hlt]
    omega

theorem drainStep_applied_latest {α : Type} {active : Bool}
    {st : DrainSt α} {res : OcrRes α}
    (h : (drainStep active st res).2 = true) :
    (drainStep active st res).1.latest = res.taskId := by
  by_cases hlt : res.taskId < st.latest
  · exfalso
    unfold drainStep at h
    rw [if_pos hlt] at h
    cases h
  · exact drainStep_latest_of_not_stale active st res hlt

theorem appliedIds_nil {α : Type} (active : Bool) (st : DrainSt α) :
    appliedIds active st [] = [] := rfl

theorem drainRun_cons {α : Type} (active : Bool) (st : DrainSt α)
    (r : OcrRes α) (rs : List (OcrRes α)) :
    drainRun active st (r :: rs) =
      ((drainRun active (drainStep active st r).1 rs).1,
        (drainStep active st r).2 ::
          (drainRun active (drainStep active st r).1 rs).2) := rfl

theorem appliedIds_cons {α : Type} (active : Bool) (st : DrainSt α)
    (r : OcrRes α) (rs : List (OcrRes α)) :
    appliedIds active st (r :: rs) =
      (if (drainStep active st r).2 then [r.taskId] else []) ++
        appliedIds active (drainStep active st r).1 rs := by
  unfold appliedIds
  rw [drainRun_cons]
  simp only [List.zip_cons_cons, List.filterMap_cons]
  cases hf : (drainStep active st r).2
  · simp
  · simp

theorem appliedIds_bound_chain {α : Type} (active : Bool) :
    ∀ (rs : List (OcrRes α)) (st : DrainSt α),
      (∀ i ∈ appliedIds active st rs, st.latest ≤ i) ∧
        (appliedIds active st rs).Chain' (· ≤ ·)
  | [], st => by
    rw [appliedIds_nil]
    exact ⟨fun i h => absurd h (List.not_mem_nil i), List.chain'_nil⟩
  | r :: rs, st => by
    rw [appliedIds_cons]
    obtain ⟨ihB, ihC⟩ := appliedIds_bound_chain active rs (drainStep active st r).1
    have hmono := drainStep_latest_mono active st r
    by_cases hf : (drainStep active st r).2 = true
    · rw [if_pos hf, List.singleton_append]
      have hlatest := drainStep_applied_latest hf
      constructor
      · intro i hi
        rcases List.mem_cons.mp hi with rfl | hi
        · exact drainStep_applied_not_stale hf
        · exact le_trans hmono (ihB i hi)
      · rw [List.chain'_cons']
        refine ⟨?_, ihC⟩
        intro b hb
        have hbmem : b ∈ appliedIds active (drainStep active st r).1 rs :=
          List.mem_of_mem_head? hb
        calc r.taskId = (drainStep active st r).1.latest := hlatest.symm
          _ ≤ b := ihB b hbmem
    · rw [if_neg hf, List.nil_append]
      exact ⟨fun i hi => le_trans hmono (ihB i hi), ihC⟩

/-- C4: the result-drain loop of `main_live` applies a result to the
visible state only when its task id is at least the latest id seen (and
so at least any previously applied id); the latest id never decreases, so
the applied ids form a nondecreasing sequence; and on results arriving
with task ids `[5, 3, 7, 6]` (gating active, no errors, resolved rows)
exactly ids 5 and 7 are applied and 3 and 6 are discarded. -/
theorem drain_applies_monotonically :
    (∀ (α : Type) (active : Bool) (st : DrainSt α) (res : OcrRes α),
        (drainStep active st res).2 = true → st.latest ≤ res.taskId) ∧
      (∀ (α : Type) (active : Bool) (st : DrainSt α) (res : OcrRes α),
        st.latest ≤ (drainStep active st res).1.latest) ∧
      (∀ (α : Type) (active : Bool) (st : DrainSt α) (rs : List (OcrRes α)),
        (appliedIds active st rs).Chain' (· ≤ ·) ∧
          ∀ i ∈ appliedIds active st rs, st.latest ≤ i) ∧
      (drainRun true ({ latest := -1 } : DrainSt Nat)
          [⟨5, some ['x'], some 1, none, false, none⟩,
           ⟨3, some ['x'], some 2, none, false, none⟩,
           ⟨7, some ['x'], some 3, none, false, none⟩,
           ⟨6, some ['x'], some 4, none, false, none⟩]).2 =
        [true, false, true, false] := by
  refine ⟨?_, ?_, ?_, by decide⟩
  · intro α active st res h
    exact drainStep_applied_not_stale h
  · intro α active st res
    exact drainStep_latest_mono active st res
  · intro α active st rs
    obtain ⟨hB, hC⟩ := appliedIds_bound_chain active rs st
    exact ⟨hC, hB⟩

/-- C4 witness: the first conjunct applied at the concrete initial state
and the id-5 result of the example run. -/
theorem drain_applies_monotonically_witness :
    ({ latest := -1 } : DrainSt Nat).latest ≤
      (⟨5, some ['x'], some 1, none, false, none⟩ : OcrRes Nat).taskId :=
  drain_applies_monotonically.1 Nat true { latest := -1 }
    ⟨5, some ['x'], some 1, none, false, none⟩ (by decide)

theorem getLast?_cons_or {β : Type} :
    ∀ (xs : List β) (x : β), (x :: xs).getLast? = xs.getLast?.or (some x)
  | [], x => rfl
  | y :: ys, x => by
    rw [List.getLast?_cons_cons, getLast?_cons_or ys y]
    cases ys.getLast? <;> rfl

theorem option_or_some_or {β : Type} {a : Option β} {b : β} {c : Option β} :
    (a.or (some b)).or c = a.or (some b) := by
  cases a <;> rfl

theorem buildFold_spec {α : Type} (key : Str) :
    ∀ (l : List (Nat × (Str × α)))
      (f : Str → Option α) (g : Str → Option Nat),
      (l.foldl buildStep (f, g)).1 key =
        (((l.filter (entryMatches key)).map (fun p => p.2.2)).getLast?).or
          (f key) ∧
      (l.foldl buildStep (f, g)).2 key =
        (g key).or (((l.filter (entryMatches key)).map (fun p => p.1)).head?)
  | [], f, g => by simp [List.foldl_nil]
  | p :: l, f, g => by
    rw [List.foldl_cons, List.filter_cons]
    by_cases hskip : (pyStrip p.2.1).isEmpty
    · have hstep : buildStep (f, g) p = (f, g) := by
        unfold buildStep; rw [if_pos hskip]
      have hm : entryMatches key p = false := by
        unfold entryMatches
        rw [hskip]
        rfl
      rw [hstep, hm]
      simp only [Bool.false_eq_true, if_false]
      exact buildFold_spec key l f g
    · set norm := normalize_name_for_match (pyStrip p.2.1) with hnorm
      have hstep : buildStep (f, g) p =
          ((fun k => if k = norm then some p.2.2 else f k),
           (fun k => if k = norm then
              match g k with
              | some i => some i
              | none => some p.1
            else g k)) := by
        unfold buildStep; rw [if_neg hskip]
      rw [hstep]
      obtain ⟨ih1, ih2⟩ := buildFold_spec key l
        (fun k => if k = norm then some p.2.2 else f k)
        (fun k => if k = norm then
          match g k with
          | some i => some i
          | none => some p.1
         else g k)
      by_cases hkey : key = norm
      · have hm : entryMatches key p = true := by
          unfold entryMatches
        
          rw [Bool.and_eq_true]
          exact ⟨by simpa using hskip, by rw [← hnorm, hkey]; simp⟩
        rw [hm]
        simp only [if_true]
        constructor
        · rw [ih1, if_pos hkey, List.map_cons, getLast?_cons_or,
            option_or_some_or]
        · rw [ih2]
          simp only [if_pos hkey]
          rw [List.map_cons, List.head?_cons]
          cases hg : g key <;> rfl
      · have hm : entryMatches key p = false := by
          unfold entryMatches
          rw [Bool.and_eq_false_iff]
          right
          rw [← hnorm]
          simpa using fun e => hkey e.symm
        rw [hm]
        simp only [Bool.false_eq_true, if_false]
        constructor
        · rw [ih1, if_neg hkey]
        · rw [ih2, if_neg hkey]

/-- C10: for every key, `build_item_lookup` maps `ITEM_LOOKUP[key]` to the
last database row (in order) whose non-empty stripped name normalizes to
`key`, while `ITEM_ORDER[key]` records the index of the first such row;
with the colliding names `"Oil"` and `"OIL"` (both normalize to `"oil"`)
the looked-up row is the second entry while the ordering index points at
the first. -/
theorem build_item_lookup_last_row_first_index :
    (∀ (α : Type) (rows : List (Str × α)) (key : Str),
        (build_item_lookup rows).1 key =
          ((keyEntries rows key).map (fun p => p.2.2)).getLast? ∧
        (build_item_lookup rows).2 key =
          ((keyEntries rows key).map (fun p => p.1)).head?) ∧
      (build_item_lookup [("Oil".data, 10), ("OIL".data, 20)]).1
          "oil".data = some 20 ∧
      (build_item_lookup [("Oil".data, 10), ("OIL".data, 20)]).2
          "oil".data = some 0 := by
  refine ⟨?_, by decide, by decide⟩
  intro α rows key
  obtain ⟨h1, h2⟩ := buildFold_spec key rows.enum
    (fun _ => (none : Option α)) (fun _ => (none : Option Nat))
  unfold build_item_lookup keyEntries
  constructor
  · rw [h1]
    cases ((rows.enum.filter (entryMatches key)).map (fun p => p.2.2)).getLast? <;> rfl
  · rw [h2]
    rfl

/-- C8: an exception while handling one task surfaces as a result whose
`error` field carries it and whose resolved name and row are `none`; the
worker then continues with the remaining tasks (one result per task, in
order); and the sentinel task makes the worker exit its loop, emitting
nothing further, with the OCR engine released on exit. -/
theorem ocr_worker_isolates_errors_and_stops_at_sentinel :
    (∀ (ρ α : Type) (ocrLines : ρ → Except Str (List Str)) (tbl : Tbl α)
        (t : OcrTask ρ) (e : Str),
        tryOcrTask ocrLines tbl t = .error e →
          processOcrTask ocrLines tbl t =
            { taskId := t.taskId, name := none, row := none,
              panelBox := t.panelBox, secondaryUsed := false,
              error := some e }) ∧
      (∀ (ρ α : Type) (ocrLines : ρ → Except Str (List Str)) (tbl : Tbl α)
          (t : OcrTask ρ) (rest : List (Option (OcrTask ρ))),
        ocr_db_worker ocrLines tbl (some t :: rest) =
          (processOcrTask ocrLines tbl t ::
              (ocr_db_worker ocrLines tbl rest).1,
            (ocr_db_worker ocrLines tbl rest).2)) ∧
      (∀ (ρ α : Type) (ocrLines : ρ → Except Str (List Str)) (tbl : Tbl α)
          (rest : List (Option (OcrTask ρ))),
        ocr_db_worker ocrLines tbl (none :: rest) = ([], true)) := by
  refine ⟨?_, ?_, ?_⟩
  · intro ρ α ocrLines tbl t e h
    unfold processOcrTask
    rw [h]
  · intro ρ α ocrLines tbl t rest
    rfl
  · intro ρ α ocrLines tbl rest
    rfl

/-- C8 witness: a task whose primary-ROI OCR raises is emitted as an
error result with no name and no row. -/
theorem ocr_worker_isolates_errors_and_stops_at_sentinel_witness :
    processOcrTask
        (fun _ : Nat => (Except.error "boom".data : Except Str (List Str)))
        ([] : Tbl Nat)
        { taskId := 1, roiPrimary := some 0, roiSecondary := none,
          panelBox := none } =
      { taskId := 1, name := none, row := none, panelBox := none,
        secondaryUsed := false, error := some "boom".data } :=
  ocr_worker_isolates_errors_and_stops_at_sentinel.1 Nat Nat _ _ _
    "boom".data rfl

/-- C6 counterexample: on a non-empty 38400 × 21600 frame with the panel
box `(0, 0, 174, 174)` (area 30276 ≥ 30000, aspect 1.0 — a box the
detector can produce), the scaled-and-clamped name rectangle starts at
`(300, 1080)`, beyond the 174-pixel panel subimage, so the returned crop
is empty (0 × 0), not at least 1 × 1. -/
theorem crop_name_region_can_be_empty :
    crop_name_region_generic 38400 21600 0 0 174 174 15 54 340 90 =
      some ((300, 1080, 7100, 2880), (0, 0)) := by
  decide

/-- C6 (amended): for every non-empty frame and panel box, the extracted
name-region rectangle is the fixed 1920×1080-reference rectangle scaled
proportionally to the frame resolution and clamped to the frame bounds,
and as a rectangle it always spans at least 1 × 1 inside the frame; the
returned crop, however, is sliced from the panel-local subimage, so its
dimensions are at least 1 × 1 exactly when the rectangle's top-left
corner falls inside that subimage (in particular whenever the panel
contains the scaled rectangle), and the crop can be empty otherwise. -/
theorem crop_name_region_rect_clamped (tw th px1 py1 px2 py2
    refX refY refW refH : Nat) (htw : 0 < tw) (hth : 0 < th) :
    ∃ nx1 ny1 nx2 ny2 cw ch,
      crop_name_region_generic tw th px1 py1 px2 py2 refX refY refW refH =
        some ((nx1, ny1, nx2, ny2), (cw, ch)) ∧
      nx1 = min (refX * tw / 1920) (tw - 1) ∧
      ny1 = min (refY * th / 1080) (th - 1) ∧
      nx2 = max (nx1 + 1) (min (refX * tw / 1920 + refW * tw / 1920) tw) ∧
      ny2 = max (ny1 + 1) (min (refY * th / 1080 + refH * th / 1080) th) ∧
      nx1 < nx2 ∧ ny1 < ny2 ∧ nx2 ≤ tw ∧ ny2 ≤ th ∧
      cw = sliceLen nx1 nx2 (sliceLen px1 px2 tw) ∧
      ch = sliceLen ny1 ny2 (sliceLen py1 py2 th) ∧
      (nx1 < sliceLen px1 px2 tw → ny1 < sliceLen py1 py2 th →
        1 ≤ cw ∧ 1 ≤ ch) := by
  refine ⟨_, _, _, _, _, _, ?_, rfl, rfl, rfl, rfl, ?_, ?_, ?_, ?_, rfl, rfl, ?_⟩
  · unfold crop_name_region_generic
    rw [if_neg (by omega)]
  · omega
  · omega
  · omega
  · omega
  · intro h1 h2
    unfold sliceLen at h1 h2 ⊢
    constructor <;> omega

/-- C6 witness: at the 1920×1080 reference resolution with panel box
`(100, 100, 400, 300)` the amended theorem yields the crop rectangle
`(15, 54, 355, 144)` and a non-empty crop. -/
theorem crop_name_region_rect_clamped_witness :
    ∃ nx1 ny1 nx2 ny2 cw ch,
      crop_name_region_generic 1920 1080 100 100 400 300 15 54 340 90 =
        some ((nx1, ny1, nx2, ny2), (cw, ch)) ∧
      nx1 = min (15 * 1920 / 1920) (1920 - 1) ∧
      ny1 = min (54 * 1080 / 1080) (1080 - 1) ∧
      nx2 = max (nx1 + 1) (min (15 * 1920 / 1920 + 340 * 1920 / 1920) 1920) ∧
      ny2 = max (ny1 + 1) (min (54 * 1080 / 1080 + 90 * 1080 / 1080) 1080) ∧
      nx1 < nx2 ∧ ny1 < ny2 ∧ nx2 ≤ 1920 ∧ ny2 ≤ 1080 ∧
      cw = sliceLen nx1 nx2 (sliceLen 100 400 1920) ∧
      ch = sliceLen ny1 ny2 (sliceLen 100 300 1080) ∧
      (nx1 < sliceLen 100 400 1920 → ny1 < sliceLen 100 300 1080 →
        1 ≤ cw ∧ 1 ≤ ch) :=
  crop_name_region_rect_clamped 1920 1080 100 100 400 300 15 54 340 90
    (by decide) (by decide)

theorem rankLeB_refl (a : Contour) : rankLeB a a = true := by
  unfold rankLeB
  simp

theorem rankLeB_total (a b : Contour) : (rankLeB a b || rankLeB b a) = true := by
  unfold rankLeB
  rcases Nat.lt_trichotomy a.x b.x with h | h | h
  · simp [h]
  · rcases le_total (areaFill a) (areaFill b) with hle | hle <;>
      simp [h, hle]
  · simp [h]

theorem rankLeB_trans (a b c : Contour) (hab : rankLeB a b = true)
    (hbc : rankLeB b c = true) : rankLeB a c = true := by
  unfold rankLeB at *
  simp only [Bool.or_eq_true, Bool.and_eq_true, decide_eq_true_eq,
    beq_iff_eq] at *
  rcases hab with h1 | ⟨h1, h2⟩ <;> rcases hbc with h3 | ⟨h3, h4⟩
  · left; omega
  · left; omega
  · left; omega
  · right; exact ⟨by omega, le_trans h4 h2⟩

/-- C5: `find_tooltip_panel_by_color` returns `none` exactly when no
contour passes the filter chain (minimum area, fill ratio ≥ 0.80, at most
`max_vertices` simplified vertices, aspect ratio in `[0.4, 1.8]`); and
when it returns a box, that box is the bounding box of a contour that
passes all filters and ranks best — leftmost x first, then larger
`area × fill_ratio` — among every passing contour. -/
theorem find_panel_filters_and_ranking :
    ∀ (cs : List Contour) (minArea : ℚ) (maxV : Nat),
      (find_tooltip_panel_by_color cs minArea maxV = none ↔
        ∀ c ∈ cs, contourPasses minArea maxV c = false) ∧
      ∀ box, find_tooltip_panel_by_color cs minArea maxV = some box →
        ∃ c, c ∈ cs ∧ contourPasses minArea maxV c = true ∧
          box = (c.x, c.y, c.x + c.w, c.y + c.h) ∧
          ∀ c' ∈ cs, contourPasses minArea maxV c' = true →
            rankLeB c c' = true := by
  intro cs minArea maxV
  have hperm := List.mergeSort_perm
    (cs.filter (contourPasses minArea maxV)) rankLeB
  have hsorted := @List.sorted_mergeSort _ rankLeB
    (fun a b c => rankLeB_trans a b c)
    (fun a b => rankLeB_total a b)
    (cs.filter (contourPasses minArea maxV))
  have hfind : find_tooltip_panel_by_color cs minArea maxV =
      match (cs.filter (contourPasses minArea maxV)).mergeSort rankLeB with
      | [] => none
      | c :: _ => some (c.x, c.y, c.x + c.w, c.y + c.h) := rfl
  rcases hms : (cs.filter (contourPasses minArea maxV)).mergeSort rankLeB
    with _ | ⟨c0, rest⟩
  · rw [hms] at hperm
    have hnone : find_tooltip_panel_by_color cs minArea maxV = none := by
      rw [hfind, hms]
    have hnil : cs.filter (contourPasses minArea maxV) = [] :=
      (hperm.symm).eq_nil
    constructor
    · constructor
      · intro _ c hc
        by_contra hpass
        have : c ∈ cs.filter (contourPasses minArea maxV) :=
          List.mem_filter.mpr ⟨hc, by simpa using hpass⟩
        rw [hnil] at this
        exact absurd this (List.not_mem_nil c)
      · intro _; exact hnone
    · intro box h
      rw [hnone] at h
      cases h
  · rw [hms] at hperm hsorted
    have hsome : find_tooltip_panel_by_color cs minArea maxV =
        some (c0.x, c0.y, c0.x + c0.w, c0.y + c0.h) := by
      rw [hfind, hms]
    have hc0mem : c0 ∈ cs.filter (contourPasses minArea maxV) :=
      hperm.mem_iff.mp (List.mem_cons_self c0 rest)
    obtain ⟨hc0cs, hc0pass⟩ := List.mem_filter.mp hc0mem
    constructor
    · constructor
      · intro h
        rw [hsome] at h
        cases h
      · intro hall
        exact absurd (hall c0 hc0cs) (by simp [hc0pass])
    · intro box h
      rw [hsome] at h
      injection h with h
      refine ⟨c0, hc0cs, by simpa using hc0pass, h.symm, ?_⟩
      intro c' hc' hpass'
      have hmem' : c' ∈ c0 :: rest :=
        hperm.symm.mem_iff.mp (List.mem_filter.mpr ⟨hc', hpass'⟩)
      rcases List.mem_cons.mp hmem' with rfl | hmem'
      · exact rankLeB_refl c'
      · exact (List.pairwise_cons.mp hsorted).1 c' hmem'

/-- C5 witness: on three concrete contours — one at x = 500 with
insufficient area, one at x = 100 and one at x = 50 both passing every
filter — the detector returns the bounding box of the x = 50 contour,
which passes the filters and ranks no worse than the other passing
contour. -/
theorem find_panel_filters_and_ranking_witness :
    ∃ c, c ∈ [(⟨500, 10, 100, 100, 17000, 4⟩ : Contour),
              ⟨100, 10, 200, 200, 72000, 4⟩,
              ⟨50, 10, 200, 200, 68000, 4⟩] ∧
      contourPasses 30000 6 c = true ∧
      ((50, 10, 250, 210) : Nat × Nat × Nat × Nat) =
        (c.x, c.y, c.x + c.w, c.y + c.h) ∧
      ∀ c' ∈ [(⟨500, 10, 100, 100, 17000, 4⟩ : Contour),
              ⟨100, 10, 200, 200, 72000, 4⟩,
              ⟨50, 10, 200, 200, 68000, 4⟩],
        contourPasses 30000 6 c' = true → rankLeB c c' = true :=
  (find_panel_filters_and_ranking
      [⟨500, 10, 100, 100, 17000, 4⟩, ⟨100, 10, 200, 200, 72000, 4⟩,
       ⟨50, 10, 200, 200, 68000, 4⟩] 30000 6).2
    (50, 10, 250, 210) (by
      have hf : List.filter (contourPasses 30000 6)
          [(⟨500, 10, 100, 100, 17000, 4⟩ : Contour),
           ⟨100, 10, 200, 200, 72000, 4⟩,
           ⟨50, 10, 200, 200, 68000, 4⟩] =
          [⟨100, 10, 200, 200, 72000, 4⟩, ⟨50, 10, 200, 200, 68000, 4⟩] := by
        rfl
      show (match (List.filter (contourPasses 30000 6)
          [(⟨500, 10, 100, 100, 17000, 4⟩ : Contour),
           ⟨100, 10, 200, 200, 72000, 4⟩,
           ⟨50, 10, 200, 200, 68000, 4⟩]).mergeSort rankLeB with
        | [] => none
        | c :: _ => some (c.x, c.y, c.x + c.w, c.y + c.h)) =
        some (50, 10, 250, 210)
      rw [hf]
      rw [List.mergeSort]
      simp [List.splitInTwo, List.merge, rankLeB, areaFill])

/-- One-step unfolding of `tickDispatch` in match form. -/
theorem tickDispatch_eq (st : CaptureSt) (gray : Option (List Int)) (now : ℚ) :
    tickDispatch st gray now =
      match (compute_name_roi_hash st.cache gray 3).1 with
      | none =>
        ({ st with cache := (compute_name_roi_hash st.cache gray 3).2 }, false)
      | some h =>
        if some h ≠ st.lastNameRoiHash then
          if mkRat 35 100 ≤ now - st.lastOcrTime then
            if 0 < st.queueFree then
              ({ cache := (compute_name_roi_hash st.cache gray 3).2,
                 lastNameRoiHash := some h, lastOcrTime := now,
                 queueFree := st.queueFree - 1,
                 lastDispatchedGray := some h }, true)
            else
              ({ st with cache := (compute_name_roi_hash st.cache gray 3).2,
                         lastNameRoiHash := some h, lastOcrTime := now }, false)
          else
            ({ st with cache := (compute_name_roi_hash st.cache gray 3).2 }, false)
        else
          ({ st with cache := (compute_name_roi_hash st.cache gray 3).2 }, false) :=
  rfl

/-- When `compute_name_roi_hash` returns a hash, its updated cache anchors
that very hash. -/
theorem hash_some_prevHash (cache : HashCache) (gray : Option (List Int))
    (threshold : ℚ) (h : List Int)
    (hh : (compute_name_roi_hash cache gray threshold).1 = some h) :
    (compute_name_roi_hash cache gray threshold).2.prevHash = some h := by
  cases gray with
  | none => simp [compute_name_roi_hash] at hh
  | some g =>
    cases hpg : cache.prevGray with
    | none =>
      simp [compute_name_roi_hash, hpg] at hh ⊢
      exact hh
    | some pg =>
      by_cases hc : pg.length = g.length ∧ meanAbsDiff pg g < threshold
      · simp [compute_name_roi_hash, hpg, hc] at hh ⊢
        exact hh
      · simp [compute_name_roi_hash, hpg, hc] at hh ⊢
        exact hh

/-- A tick that enqueues a task passed every gate, and its after-state
records the dispatched hash and time. -/
theorem tickDispatch_true_shape (st : CaptureSt) (gray : Option (List Int))
    (now : ℚ) (hd : (tickDispatch st gray now).2 = true) :
    ∃ h, (compute_name_roi_hash st.cache gray 3).1 = some h ∧
      some h ≠ st.lastNameRoiHash ∧
      mkRat 35 100 ≤ now - st.lastOcrTime ∧ 0 < st.queueFree ∧
      (tickDispatch st gray now).1 =
        { cache := (compute_name_roi_hash st.cache gray 3).2,
          lastNameRoiHash := some h, lastOcrTime := now,
          queueFree := st.queueFree - 1, lastDispatchedGray := some h } := by
  rcases hh : (compute_name_roi_hash st.cache gray 3).1 with _ | h
  · rw [tickDispatch_eq, hh] at hd
    simp at hd
  · rw [tickDispatch_eq, hh] at hd
    by_cases h1 : some h = st.lastNameRoiHash
    · simp [h1] at hd
    · by_cases h2 : mkRat 35 100 ≤ now - st.lastOcrTime
      · by_cases h3 : 0 < st.queueFree
        · refine ⟨h, rfl, h1, h2, h3, ?_⟩
          rw [tickDispatch_eq, hh]
          simp [h1, h2, h3]
        · simp [h1, h2, h3] at hd
      · simp [h1, h2] at hd

/-- C7 counterexample: starting from the initial capture state, frames with
grays `[0]` (t = 1000, dispatched), `[10]` (t = 1000.1, throttled by the
0.35 s gate but re-anchoring the hash cache) and `[2]` (t = 1000.5)
produce a second dispatch although the dispatched content `[2]` differs
from the last-dispatched content `[0]` by mean absolute difference 2,
below the 3.0 threshold. -/
theorem dispatch_fires_despite_small_hash_difference :
    (tickDispatch {} (some [0]) (mkRat 1000 1)).2 = true ∧
    (tickDispatch (tickDispatch {} (some [0]) (mkRat 1000 1)).1 (some [10])
        (mkRat 10001 10)).2 = false ∧
    ((tickDispatch (tickDispatch {} (some [0]) (mkRat 1000 1)).1 (some [10])
        (mkRat 10001 10)).1).lastDispatchedGray = some [0] ∧
    (tickDispatch ((tickDispatch (tickDispatch {} (some [0]) (mkRat 1000 1)).1
        (some [10]) (mkRat 10001 10)).1) (some [2]) (mkRat 20010 20)).2 =
      true ∧
    meanAbsDiff [2] [0] < 3 := by
  have h1 : tickDispatch {} (some [0]) (mkRat 1000 1) =
      ({ cache := ⟨some [0], some [0]⟩, lastNameRoiHash := some [0],
         lastOcrTime := mkRat 1000 1, queueFree := 3,
         lastDispatchedGray := some [0] }, true) := by
    simp only [tickDispatch, compute_name_roi_hash]
    norm_num
    decide
  have h2 : tickDispatch
      ({ cache := ⟨some [0], some [0]⟩,
         lastNameRoiHash := some [0], lastOcrTime := mkRat 1000 1,
         queueFree := 3, lastDispatchedGray := some [0] } : CaptureSt)
      (some [10]) (mkRat 10001 10) =
      ({ cache := ⟨some [10], some [10]⟩, lastNameRoiHash := some [0],
         lastOcrTime := mkRat 1000 1, queueFree := 3,
         lastDispatchedGray := some [0] }, false) := by
    simp only [tickDispatch, compute_name_roi_hash]
    norm_num [meanAbsDiff]
  have h3 : (tickDispatch
      ({ cache := ⟨some [10], some [10]⟩,
         lastNameRoiHash := some [0], lastOcrTime := mkRat 1000 1,
         queueFree := 3, lastDispatchedGray := some [0] } : CaptureSt)
      (some [2]) (mkRat 20010 20)).2 = true := by
    simp only [tickDispatch, compute_name_roi_hash]
    norm_num [meanAbsDiff]
  refine ⟨?_, ?_, ?_, ?_, ?_⟩
  · rw [h1]
  · simp only [h1, h2]
  · simp only [h1, h2]
  · simp only [h1, h2]
    exact h3
  · norm_num [meanAbsDiff]

/-- C7: a capture tick enqueues an OCR task only if the computed ROI hash
exists, differs (as a byte string) from `last_name_roi_hash`, at least
0.35 s elapsed since `LAST_OCR_TIME`, and the task queue has room; the
computed hash is the cached anchor hash whenever the new gray stays
within mean-absolute-difference 3.0 of the cached anchor gray; and after
a dispatching tick, a second frame whose gray stays within 3.0 of the
(possibly re-anchored) cached anchor gray is never dispatched. -/
theorem ocr_dispatch_throttled (st : CaptureSt) (gray : Option (List Int))
    (now : ℚ) :
    ((tickDispatch st gray now).2 = true →
      (compute_name_roi_hash st.cache gray 3).1 ≠ none ∧
      (compute_name_roi_hash st.cache gray 3).1 ≠ st.lastNameRoiHash ∧
      mkRat 35 100 ≤ now - st.lastOcrTime ∧ 0 < st.queueFree) ∧
    (∀ g pg, gray = some g → st.cache.prevGray = some pg →
      pg.length = g.length → meanAbsDiff pg g < 3 →
      (compute_name_roi_hash st.cache gray 3).1 = st.cache.prevHash) ∧
    (∀ (g2 pg2 : List Int) (now2 : ℚ),
      (tickDispatch st gray now).2 = true →
      ((tickDispatch st gray now).1).cache.prevGray = some pg2 →
      pg2.length = g2.length → meanAbsDiff pg2 g2 < 3 →
      (tickDispatch ((tickDispatch st gray now).1) (some g2) now2).2 =
        false) := by
  refine ⟨?_, ?_, ?_⟩
  · intro hd
    obtain ⟨h, hh, hne, ht, hq, _⟩ := tickDispatch_true_shape st gray now hd
    exact ⟨by rw [hh]; simp, by rw [hh]; exact hne, ht, hq⟩
  · intro g pg hg hpg hlen hdiff
    subst hg
    simp [compute_name_roi_hash, hpg, hlen, hdiff]
  · intro g2 pg2 now2 hd hpg2 hlen hdiff
    obtain ⟨h, hh, hne, ht, hq, hst⟩ := tickDispatch_true_shape st gray now hd
    have hph : ((tickDispatch st gray now).1).cache.prevHash = some h := by
      rw [hst]
      exact hash_some_prevHash _ _ _ _ hh
    have hlast : ((tickDispatch st gray now).1).lastNameRoiHash = some h := by
      rw [hst]
    have hh2 : (compute_name_roi_hash ((tickDispatch st gray now).1).cache
        (some g2) 3).1 = some h := by
      simp [compute_name_roi_hash, hpg2, hlen, hdiff, hph]
    rw [tickDispatch_eq, hh2]
    simp [hlast]

/-- C7 witness: from the initial state with frame gray `[0]` at t = 1, the
hash exists, differs from the (absent) last hash, the 0.35 s gate and the
queue-capacity gate pass; a frame `[1]` against a cache anchored at `[0]`
keeps the anchored hash `[2]`; and after the dispatching tick, a second
frame `[1]` within threshold of the anchor `[0]` is not dispatched. -/
theorem ocr_dispatch_throttled_witness :
    ((compute_name_roi_hash ({} : CaptureSt).cache (some [0]) 3).1 ≠ none ∧
     (compute_name_roi_hash ({} : CaptureSt).cache (some [0]) 3).1 ≠
       ({} : CaptureSt).lastNameRoiHash ∧
     mkRat 35 100 ≤ 1 - ({} : CaptureSt).lastOcrTime ∧
     0 < ({} : CaptureSt).queueFree) ∧
    (compute_name_roi_hash
        ({ cache := ⟨some [0], some [2]⟩ } : CaptureSt).cache (some [1]) 3).1 =
      ({ cache := ⟨some [0], some [2]⟩ } : CaptureSt).cache.prevHash ∧
    (tickDispatch (tickDispatch {} (some [0]) 1).1 (some [1]) 2).2 = false := by
  have h1 : tickDispatch {} (some [0]) 1 =
      ({ cache := ⟨some [0], some [0]⟩, lastNameRoiHash := some [0],
         lastOcrTime := 1, queueFree := 3,
         lastDispatchedGray := some [0] }, true) := by
    simp only [tickDispatch, compute_name_roi_hash]
    norm_num
    decide
  refine ⟨(ocr_dispatch_throttled {} (some [0]) 1).1 (by rw [h1]),
    (ocr_dispatch_throttled { cache := ⟨some [0], some [2]⟩ } (some [1]) 1).2.1
      [1] [0] rfl rfl (by decide) (by norm_num [meanAbsDiff]),
    (ocr_dispatch_throttled {} (some [0]) 1).2.2 [1] [0] 2 (by rw [h1])
      (by rw [h1]) (by decide) (by norm_num [meanAbsDiff])⟩


/-- C9 counterexample: panel (100, 100, 400, 300) on a 1920×1080 monitor
with a 200×100 overlay — the right anchor 404 fits with room to spare —
yet with the pointer at (1800, 200) the overlay is placed at the clamped
left anchor x = 0, because the pointer is nearer the right anchor than the
left one; with no pointer the same call places x = 404. -/
theorem mouse_flips_placement_left :
    (show_helper_tooltip_pos 1920 1080 4 46 200 100 150 100 100 100 400 300
        false 0 0 (some (1800, 200))).1 = 0 ∧
    (show_helper_tooltip_pos 1920 1080 4 46 200 100 150 100 100 100 400 300
        false 0 0 none).1 = 404 := by decide

/-- C9: when the panel's right edge is on-screen (`0 ≤ gx2`), the
single-column overlay fits at the right anchor within the screen minus the
10 px margin, and the pointer is absent or no nearer the right anchor than
the left one, the overlay's x position is the panel's right edge plus the
scaled side gap `max gap_x 4`. -/
theorem right_anchor_when_fits (screenW screenH gapX gapY wF hF wC hC
    gx1 gy1 gx2 gy2 monLeft monTop : ℤ) (usedSecondary : Bool)
    (mouse : Option (ℤ × ℤ))
    (h0 : 0 ≤ gx2)
    (hfit : gx2 + max gapX 4 + wF ≤ screenW - 10)
    (hm : mouse = none ∨ ∃ mx my, mouse = some (mx, my) ∧
      horizontalDistance (mx - monLeft) (gx1 - max gapX 4 - wF) wF ≤
        horizontalDistance (mx - monLeft) (gx2 + max gapX 4) wF) :
    (show_helper_tooltip_pos screenW screenH gapX gapY wF hF wC hC
        gx1 gy1 gx2 gy2 usedSecondary monLeft monTop mouse).1 =
      gx2 + max gapX 4 := by
  have hsg : (4:ℤ) ≤ max gapX 4 := le_max_right _ _
  rcases hm with rfl | ⟨mx, my, rfl, hd⟩
  · simp only [show_helper_tooltip_pos, hfit, if_true, Option.map_none',
      Bool.false_or, decide_True]
    omega
  · simp only [show_helper_tooltip_pos, hfit, if_true, Option.map_some']
    rw [if_pos hd]
    simp only [Bool.false_or, decide_True, if_true]
    omega

/-- C9 witness: the concrete no-pointer call of the counterexample placed
through the theorem — panel (100, 100, 400, 300), 1920×1080 screen,
200×100 overlay, x resolves to 400 + max 4 4 = 404. -/
theorem right_anchor_when_fits_witness :
    (show_helper_tooltip_pos 1920 1080 4 46 200 100 150 100 100 100 400 300
        false 0 0 none).1 = 400 + max 4 4 :=
  right_anchor_when_fits 1920 1080 4 46 200 100 150 100 100 100 400 300 0 0
    false none (by decide) (by decide) (Or.inl rfl)

/-!
### C1: `find_item_row_by_name` against the spec's resolution procedure

The development below proves the CPython similarity-ratio chain
`ratio ≤ quick_ratio ≤ real_quick_ratio` (via the matching-blocks bound
`matches ≤ |multiset intersection|`), characterizes the `(score, string)`
maximum `get_close_matches` selects, and concludes that the source's four
stages coincide with the spec's stages — once the token stage is guarded
as the code guards it and the empty-input early-out is accounted for.
-/

theorem strLtB_irrefl (s : Str) : strLtB s s = false := by
  induction s with
  | nil => rfl
  | cons c t ih => simp [strLtB, ih]

theorem strLtB_trans : ∀ {s t u : Str}, strLtB s t = true → strLtB t u = true →
    strLtB s u = true
  | [], [], _, h, _ => by simp [strLtB] at h
  | [], _ :: _, [], _, h => by simp [strLtB] at h
  | [], _ :: _, _ :: _, _, _ => rfl
  | _ :: _, [], _, h, _ => by simp [strLtB] at h
  | _ :: _, _ :: _, [], _, h => by simp [strLtB] at h
  | c :: s, d :: t, e :: u, h1, h2 => by
    simp only [strLtB] at *
    by_cases hcd : c = d
    · subst hcd
      by_cases hde : c = e
      · subst hde
        simp at h1 h2 ⊢
        exact strLtB_trans h1 h2
      · simp [hde] at h2 ⊢
        simpa [hde] using h2
    · by_cases hde : d = e
      · subst hde
        simp [hcd] at h1 ⊢
        simpa [hcd] using h1
      · simp [hcd, hde] at h1 h2
        by_cases hce : c = e
        · subst hce
          exact absurd (lt_trans h1 h2) (lt_irrefl c)
        · simp [hce]
          exact lt_trans h1 h2

theorem strLtB_resolve : ∀ {s t : Str}, strLtB s t = false →
    s = t ∨ strLtB t s = true
  | [], [], _ => Or.inl rfl
  | [], _ :: _, h => by simp [strLtB] at h
  | _ :: _, [], _ => Or.inr rfl
  | c :: s, d :: t, h => by
    simp only [strLtB] at h ⊢
    by_cases hcd : c = d
    · subst hcd
      simp at h ⊢
      rcases strLtB_resolve h with rfl | h2
      · exact Or.inl rfl
      · exact Or.inr h2
    · simp [hcd] at h
      have hdc : d < c := lt_of_le_of_ne h (fun he => hcd he.symm)
      have hne : ¬ d = c := fun he => hcd he.symm
      exact Or.inr (by simp [hne, hdc])

theorem pairLtB_irrefl (p : ℚ × Str) : pairLtB p p = false := by
  simp [pairLtB, strLtB_irrefl]

theorem pairLtB_trans {p q r : ℚ × Str} (h1 : pairLtB p q = true)
    (h2 : pairLtB q r = true) : pairLtB p r = true := by
  obtain ⟨p1, p2⟩ := p
  obtain ⟨q1, q2⟩ := q
  obtain ⟨r1, r2⟩ := r
  simp only [pairLtB] at *
  by_cases hpq : p1 = q1
  · subst hpq
    by_cases hqr : p1 = r1
    · subst hqr
      simp at h1 h2 ⊢
      exact strLtB_trans h1 h2
    · simp [hqr] at h2 ⊢
      exact h2
  · by_cases hqr : q1 = r1
    · subst hqr
      simp [hpq] at h1 ⊢
      exact h1
    · simp [hpq] at h1
      simp [hqr] at h2
      have hlt : p1 < r1 := lt_trans h1 h2
      simp [ne_of_lt hlt, hlt]

theorem pairLtB_resolve {p q : ℚ × Str} (h : pairLtB p q = false) :
    p = q ∨ pairLtB q p = true := by
  obtain ⟨p1, p2⟩ := p
  obtain ⟨q1, q2⟩ := q
  simp only [pairLtB] at *
  by_cases hpq : p1 = q1
  · subst hpq
    simp at h ⊢
    rcases strLtB_resolve h with rfl | h2
    · exact Or.inl rfl
    · exact Or.inr h2
  · simp [hpq] at h
    have hqp : q1 < p1 := lt_of_le_of_ne h (fun he => hpq he.symm)
    have hne : ¬ q1 = p1 := fun he => hpq he.symm
    exact Or.inr (by simp [hne, hqp])

theorem pairLtB_fst_le_of_false {p q : ℚ × Str} (h : pairLtB p q = false) :
    q.1 ≤ p.1 := by
  obtain ⟨p1, p2⟩ := p
  obtain ⟨q1, q2⟩ := q
  simp only [pairLtB] at h
  by_cases hpq : p1 = q1
  · simp [hpq]
  · simp [hpq] at h
    exact h

theorem foldMax_mem (l : List (ℚ × Str)) : ∀ cur,
    l.foldl (fun cur y => if pairLtB cur y then y else cur) cur ∈ cur :: l := by
  induction l with
  | nil => intro cur; simp
  | cons z t ih =>
    intro cur
    simp only [List.foldl_cons]
    by_cases hz : pairLtB cur z = true
    · rw [if_pos hz]
      rcases List.mem_cons.mp (ih z) with h | h
      · rw [h]; exact List.mem_cons_of_mem _ (List.mem_cons_self _ _)
      · exact List.mem_cons_of_mem _ (List.mem_cons_of_mem _ h)
    · rw [if_neg hz]
      rcases List.mem_cons.mp (ih cur) with h | h
      · rw [h]; exact List.mem_cons_self _ _

      · exact List.mem_cons_of_mem _ (List.mem_cons_of_mem _ h)

theorem foldMax_ub (l : List (ℚ × Str)) : ∀ cur y, y ∈ cur :: l →
    pairLtB (l.foldl (fun cur y => if pairLtB cur y then y else cur) cur) y =
      false := by
  induction l with
  | nil =>
    intro cur y hy
    rcases List.mem_cons.mp hy with rfl | hy
    · exact pairLtB_irrefl y
    · exact absurd hy (List.not_mem_nil _)
  | cons z t ih =>
    intro cur y hy
    simp only [List.foldl_cons]
    by_cases hz : pairLtB cur z = true
    · rw [if_pos hz]
      rcases List.mem_cons.mp hy with rfl | hy
      · by_contra hmy
        rw [Bool.not_eq_false] at hmy
        have h2 := pairLtB_trans hmy hz
        have hub := ih z z (List.mem_cons_self z t)
        rw [hub] at h2
        exact Bool.false_ne_true h2
      · rcases List.mem_cons.mp hy with rfl | hy2
        · exact ih y y (List.mem_cons_self _ _)
        · exact ih z y (List.mem_cons_of_mem z hy2)
    · rw [if_neg hz]
      have hzf : pairLtB cur z = false := by simpa using hz
      rcases List.mem_cons.mp hy with rfl | hy
      · exact ih y y (List.mem_cons_self _ _)
      · rcases List.mem_cons.mp hy with rfl | hy2
        · by_contra hmy
          rw [Bool.not_eq_false] at hmy
          have hub := ih cur cur (List.mem_cons_self _ _)
          rcases pairLtB_resolve hzf with he | hzc
          · rw [← he] at hmy
            rw [hub] at hmy
            exact Bool.false_ne_true hmy
          · have h2 := pairLtB_trans hmy hzc
            rw [hub] at h2
            exact Bool.false_ne_true h2
        · exact ih cur y (List.mem_cons_of_mem _ hy2)

theorem pairMax_none_iff (xs : List (ℚ × Str)) : pairMax xs = none ↔ xs = [] := by
  cases xs with
  | nil => simp [pairMax]
  | cons x rest => simp [pairMax]

theorem pairMax_eq_some_iff (xs : List (ℚ × Str)) (m : ℚ × Str) :
    pairMax xs = some m ↔
      (m ∈ xs ∧ ∀ y ∈ xs, pairLtB m y = false) := by
  constructor
  · intro h
    cases xs with
    | nil => simp [pairMax] at h
    | cons x rest =>
      simp only [pairMax, Option.some_inj] at h
      subst h
      exact ⟨foldMax_mem rest x, fun y hy => foldMax_ub rest x y hy⟩
  · rintro ⟨hmem, hub⟩
    cases xs with
    | nil => exact absurd hmem (List.not_mem_nil _)
    | cons x rest =>
      simp only [pairMax, Option.some_inj]
      have hmem2 := foldMax_mem rest x
      have hub2 := fun y hy => foldMax_ub rest x y hy
      have h1 := hub _ hmem2
      have h2 := hub2 _ hmem
      rcases pairLtB_resolve h1 with he | hgt
      · exact he.symm
      · rw [h2] at hgt
        exact absurd hgt Bool.false_ne_true

theorem pairMax_filter_threshold (xs : List (ℚ × Str)) (c : ℚ) :
    pairMax (xs.filter (fun p => decide (c ≤ p.1))) =
      match pairMax xs with
      | some m => if c ≤ m.1 then some m else none
      | none => none := by
  rcases hmx : pairMax xs with _ | m
  · rw [(pairMax_none_iff xs).mp hmx]
    simp [pairMax]
  · obtain ⟨hmem, hub⟩ := (pairMax_eq_some_iff xs m).mp hmx
    by_cases hc : c ≤ m.1
    · simp only [hc, if_true]
      refine (pairMax_eq_some_iff _ m).mpr ⟨?_, ?_⟩
      · exact List.mem_filter.mpr ⟨hmem, by simpa using hc⟩
      · intro y hy
        exact hub y (List.mem_filter.mp hy).1
    · simp only [hc, if_false]
      rw [pairMax_none_iff]
      rw [List.filter_eq_nil_iff]
      intro y hy
      have := pairLtB_fst_le_of_false (hub y hy)
      simp only [decide_eq_true_eq]
      intro hcy
      exact hc (le_trans hcy this)

theorem MatchSeg_zero (a b : Str) (i j : Nat) : MatchSeg a b i j 0 :=
  fun d hd => absurd hd (Nat.not_lt_zero d)

theorem b2j_mem {b : Str} {c : Char} {j : Nat} (h : j ∈ b2j b c) :
    b.get? j = some c := by
  unfold b2j at h
  by_cases hc : 200 ≤ b.length ∧ b.length / 100 + 1 <
      ((List.range b.length).filter (fun j => b.get? j = some c)).length
  · rw [if_pos hc] at h
    exact absurd h (List.not_mem_nil _)
  · rw [if_neg hc] at h
    have := (List.mem_filter.mp h).2
    simpa using this

theorem flmRow_ok (a b : Str) (alo ahi blo bhi : Nat) (f : Nat → Nat) (i : Nat)
    (js : List Nat) (best : Nat × Nat × Nat)
    (hf : RowNext a b alo blo bhi i f)
    (hbest : FlmOK a b alo ahi blo bhi best)
    (hialo : alo ≤ i) (hiahi : i < ahi)
    (hjs : ∀ j ∈ js, blo ≤ j ∧ j < bhi ∧
      ∃ c, a.get? i = some c ∧ b.get? j = some c) :
    RowNext a b alo blo bhi (i + 1) (flmRow f i js best).1 ∧
      FlmOK a b alo ahi blo bhi (flmRow f i js best).2 := by
  unfold flmRow
  suffices H : ∀ (js2 : List Nat) (st : FlmSt),
      (∀ j ∈ js2, blo ≤ j ∧ j < bhi ∧
        ∃ c, a.get? i = some c ∧ b.get? j = some c) →
      RowNext a b alo blo bhi (i + 1) st.1 →
      FlmOK a b alo ahi blo bhi st.2 →
      RowNext a b alo blo bhi (i + 1)
        (js2.foldl
          (fun (st : FlmSt) j =>
            let k := (if j = 0 then 0 else f (j - 1)) + 1
            let m := fun j' => if j' = j then k else st.1 j'
            if st.2.2.2 < k then (m, (i + 1 - k, (j + 1 - k, k)))
            else (m, st.2)) st).1 ∧
      FlmOK a b alo ahi blo bhi
        (js2.foldl
          (fun (st : FlmSt) j =>
            let k := (if j = 0 then 0 else f (j - 1)) + 1
            let m := fun j' => if j' = j then k else st.1 j'
            if st.2.2.2 < k then (m, (i + 1 - k, (j + 1 - k, k)))
            else (m, st.2)) st).2 by
    exact H js ((fun _ => 0), best) hjs (fun j hj => absurd hj (by simp)) hbest
  intro js2
  induction js2 with
  | nil =>
    intro st _ h1 h2
    exact ⟨h1, h2⟩
  | cons j rest ih =>
    intro st hjs2 h1 h2
    obtain ⟨hblo, hbhi, c, hac, hbc⟩ := hjs2 j (List.mem_cons_self _ _)
    simp only [List.foldl_cons]
    have hkseg : ∃ sa sb, sa + ((if j = 0 then 0 else f (j - 1)) + 1) = i + 1 ∧
        sb + ((if j = 0 then 0 else f (j - 1)) + 1) = j + 1 ∧
        alo ≤ sa ∧ blo ≤ sb ∧
        MatchSeg a b sa sb ((if j = 0 then 0 else f (j - 1)) + 1) := by
      by_cases hj0 : j = 0
      · subst hj0
        refine ⟨i, 0, by simp, by simp, hialo, by omega, ?_⟩
        intro d hd
        rw [if_pos rfl] at hd
        interval_cases d
        exact ⟨c, by simpa using hac, by simpa using hbc⟩
      · rw [if_neg hj0]
        by_cases hL : 0 < f (j - 1)
        · obtain ⟨sa, sb, hsa, hsb, halo2, hblo2, _, hseg⟩ := hf (j - 1) hL
          refine ⟨sa, sb, by omega, by omega, halo2, hblo2, ?_⟩
          intro d hd
          by_cases hdL : d < f (j - 1)
          · exact hseg d hdL
          · have hdeq : d = f (j - 1) := by omega
            subst hdeq
            have hia : sa + f (j - 1) = i := by omega
            have hjb : sb + f (j - 1) = j := by omega
            rw [hia, hjb]
            exact ⟨c, hac, hbc⟩
        · have hL0 : f (j - 1) = 0 := by omega
          rw [hL0]
          refine ⟨i, j, by simp, by simp, hialo, hblo, ?_⟩
          intro d hd
          simp only [Nat.zero_add] at hd
          interval_cases d
          exact ⟨c, by simpa using hac, by simpa using hbc⟩
    obtain ⟨sa, sb, hsa, hsb, halo2, hblo2, hseg⟩ := hkseg
    have hrow : RowNext a b alo blo bhi (i + 1)
        (fun j' => if j' = j then (if j = 0 then 0 else f (j - 1)) + 1
          else st.1 j') := by
      intro j' hj'
      by_cases hjj : j' = j
      · subst hjj
        simp only [if_pos rfl] at hj' ⊢
        exact ⟨sa, sb, hsa, hsb, halo2, hblo2, hbhi, hseg⟩
      · simp only [if_neg hjj] at hj' ⊢
        exact h1 j' hj'
    by_cases hlt : st.2.2.2 < (if j = 0 then 0 else f (j - 1)) + 1
    · rw [if_pos hlt]
      apply ih _ (fun j2 hj2 => hjs2 j2 (List.mem_cons_of_mem _ hj2))
      · exact hrow
      · simp only [FlmOK]
        refine ⟨by omega, by omega, by omega, by omega, ?_⟩
        have hia : i + 1 - ((if j = 0 then 0 else f (j - 1)) + 1) = sa := by
          omega
        have hjb : j + 1 - ((if j = 0 then 0 else f (j - 1)) + 1) = sb := by
          omega
        rw [hia, hjb]
        exact hseg
    · rw [if_neg hlt]
      apply ih _ (fun j2 hj2 => hjs2 j2 (List.mem_cons_of_mem _ hj2))
      · exact hrow
      · exact h2

theorem flmDP_ok (a b : Str) (alo ahi blo bhi : Nat)
    (h1 : alo ≤ ahi) (h2 : blo ≤ bhi) :
    FlmOK a b alo ahi blo bhi (flmDP a b alo ahi blo bhi) := by
  unfold flmDP
  suffices H : ∀ (n s : Nat) (st : FlmSt), alo ≤ s → s + n ≤ ahi →
      RowNext a b alo blo bhi s st.1 → FlmOK a b alo ahi blo bhi st.2 →
      FlmOK a b alo ahi blo bhi
        (((List.range' s n).foldl
          (fun (st : FlmSt) i =>
            let js := match a.get? i with
              | none => []
              | some c => (b2j b c).filter (fun j => blo ≤ j && j < bhi)
            flmRow st.1 i js st.2) st).2) by
    refine H (ahi - alo) alo ((fun _ => 0), (alo, (blo, 0))) le_rfl (by omega)
      (fun j hj => absurd hj (by simp)) ?_
    exact ⟨le_rfl, le_rfl, by simpa using h1, by simpa using h2,
      MatchSeg_zero a b alo blo⟩
  intro n
  induction n with
  | zero =>
    intro s st _ _ _ hok
    simpa using hok
  | succ n ih =>
    intro s st hs hsn hrow hok
    rw [List.range'_succ]
    simp only [List.foldl_cons]
    have hjs : ∀ j ∈ (match a.get? s with
        | none => []
        | some c => (b2j b c).filter (fun j => blo ≤ j && j < bhi)),
        blo ≤ j ∧ j < bhi ∧ ∃ c, a.get? s = some c ∧ b.get? j = some c := by
      rcases hga : a.get? s with _ | c
      · intro j hj
        simp at hj
      · intro j hj
        simp only at hj
        have hmem := List.mem_filter.mp hj
        have hrange : blo ≤ j ∧ j < bhi := by simpa using hmem.2
        exact ⟨hrange.1, hrange.2, c, rfl, b2j_mem hmem.1⟩
    have hstep := flmRow_ok a b alo ahi blo bhi st.1 s _ st.2 hrow hok hs
      (by omega) hjs
    exact ih (s + 1) _ (by omega) (by omega) hstep.1 hstep.2

theorem extendLeft_ok (a b : Str) (alo ahi blo bhi : Nat) :
    ∀ (n : Nat) (r : Nat × Nat × Nat), FlmOK a b alo ahi blo bhi r →
      FlmOK a b alo ahi blo bhi (extendLeft a b alo blo n r) := by
  intro n
  induction n with
  | zero => intro r h; exact h
  | succ n ih =>
    rintro ⟨bi, bj, bs⟩ h
    simp only [FlmOK] at h
    obtain ⟨h1, h2, h3, h4, hseg⟩ := h
    unfold extendLeft
    by_cases hg : (alo < bi && blo < bj &&
        (a.get? (bi - 1)).isSome && a.get? (bi - 1) = b.get? (bj - 1)) = true
    · rw [if_pos hg]
      simp only [Bool.and_eq_true, decide_eq_true_eq, Option.isSome_iff_exists,
        decide_eq_true_eq] at hg
      obtain ⟨⟨⟨hbi, hbj⟩, c, hc⟩, heq⟩ := hg
      apply ih
      simp only [FlmOK]
      refine ⟨by omega, by omega, by omega, by omega, ?_⟩
      intro d hd
      rcases Nat.eq_zero_or_pos d with rfl | hdpos
      · refine ⟨c, by simpa using hc, ?_⟩
        simp only [Nat.add_zero]
        rw [← heq]
        exact hc
      · obtain ⟨e, rfl⟩ := Nat.exists_eq_add_of_le hdpos
        have hpos : bi - 1 + (1 + e) = bi + e := by omega
        have hpos2 : bj - 1 + (1 + e) = bj + e := by omega
        rw [hpos, hpos2]
        exact hseg e (by omega)
    · rw [if_neg hg]
      exact ⟨h1, h2, h3, h4, hseg⟩

theorem extendRight_ok (a b : Str) (alo ahi blo bhi : Nat) :
    ∀ (n : Nat) (r : Nat × Nat × Nat), FlmOK a b alo ahi blo bhi r →
      FlmOK a b alo ahi blo bhi (extendRight a b ahi bhi n r) := by
  intro n
  induction n with
  | zero => intro r h; exact h
  | succ n ih =>
    rintro ⟨bi, bj, bs⟩ h
    simp only [FlmOK] at h
    obtain ⟨h1, h2, h3, h4, hseg⟩ := h
    unfold extendRight
    by_cases hg : (bi + bs < ahi && bj + bs < bhi &&
        (a.get? (bi + bs)).isSome && a.get? (bi + bs) = b.get? (bj + bs)) = true
    · rw [if_pos hg]
      simp only [Bool.and_eq_true, decide_eq_true_eq, Option.isSome_iff_exists,
        decide_eq_true_eq] at hg
      obtain ⟨⟨⟨hbi, hbj⟩, c, hc⟩, heq⟩ := hg
      apply ih
      simp only [FlmOK]
      refine ⟨h1, h2, by omega, by omega, ?_⟩
      intro d hd
      by_cases hds : d < bs
      · exact hseg d hds
      · have hdeq : d = bs := by omega
        subst hdeq
        refine ⟨c, hc, ?_⟩
        rw [← heq]
        exact hc
    · rw [if_neg hg]
      exact ⟨h1, h2, h3, h4, hseg⟩

theorem find_longest_match_ok (a b : Str) (alo ahi blo bhi : Nat)
    (h1 : alo ≤ ahi) (h2 : blo ≤ bhi) :
    FlmOK a b alo ahi blo bhi (find_longest_match a b alo ahi blo bhi) := by
  unfold find_longest_match
  exact extendRight_ok a b alo ahi blo bhi _ _
    (extendLeft_ok a b alo ahi blo bhi _ _ (flmDP_ok a b alo ahi blo bhi h1 h2))

theorem slice_split (l : List Char) (s t u : Nat) (h1 : s ≤ t) (h2 : t ≤ u) :
    (l.drop s).take (u - s) =
      (l.drop s).take (t - s) ++ (l.drop t).take (u - t) := by
  have hsum : u - s = (t - s) + (u - t) := by omega
  rw [hsum, List.take_add]
  congr 1
  rw [List.drop_drop]
  congr 2
  omega

theorem seg_eq_of_matchseg (a b : Str) (i j k : Nat)
    (hseg : MatchSeg a b i j k) :
    (a.drop i).take k = (b.drop j).take k := by
  apply List.ext_get?
  intro d
  by_cases hd : d < k
  · obtain ⟨c, hac, hbc⟩ := hseg d hd
    have hla : i + d < a.length := by
      by_contra hcon
      rw [List.get?_eq_none.mpr (by omega)] at hac
      cases hac
    have hlb : j + d < b.length := by
      by_contra hcon
      rw [List.get?_eq_none.mpr (by omega)] at hbc
      cases hbc
    rw [List.get?_take hd, List.get?_take hd, List.get?_drop, List.get?_drop]
    rw [hac, hbc]
  · rw [List.get?_eq_none.mpr, List.get?_eq_none.mpr]
    · refine le_trans (List.length_take_le _ _) (by omega)
    · refine le_trans (List.length_take_le _ _) (by omega)

theorem seg_length_of_matchseg_a (a b : Str) (i j k : Nat)
    (hseg : MatchSeg a b i j k) : ((a.drop i).take k).length = k := by
  rcases Nat.eq_zero_or_pos k with rfl | hk
  · simp
  · obtain ⟨c, hac, _⟩ := hseg (k - 1) (by omega)
    have hla : i + (k - 1) < a.length := by
      by_contra hcon
      rw [List.get?_eq_none.mpr (by omega)] at hac
      cases hac
    rw [List.length_take, List.length_drop]
    omega

theorem card_inter_tripartite (A1 A2 B1 B2 S : Multiset Char) :
    Multiset.card S + Multiset.card (A1 ∩ B1) + Multiset.card (A2 ∩ B2) ≤
      Multiset.card ((A1 + S + A2) ∩ (B1 + S + B2)) := by
  have hle : (A1 ∩ B1) + S + (A2 ∩ B2) ≤ (A1 + S + A2) ∩ (B1 + S + B2) := by
    rw [Multiset.le_iff_count]
    intro c
    simp only [Multiset.count_add, Multiset.count_inter]
    omega
  have := Multiset.card_le_card hle
  simp only [Multiset.card_add] at this
  omega

theorem matchedM_le (a b : Str) : ∀ (fuel alo ahi blo bhi : Nat),
    alo ≤ ahi → blo ≤ bhi →
    matchedM a b fuel alo ahi blo bhi ≤
      Multiset.card ((((a.drop alo).take (ahi - alo) : List Char) :
          Multiset Char) ∩
        (((b.drop blo).take (bhi - blo) : List Char) : Multiset Char)) := by
  intro fuel
  induction fuel with
  | zero =>
    intro alo ahi blo bhi _ _
    simp [matchedM]
  | succ n ih =>
    intro alo ahi blo bhi hw1 hw2
    have hok := find_longest_match_ok a b alo ahi blo bhi hw1 hw2
    obtain ⟨hi1, hj1, hi2, hj2, hseg⟩ := hok
    set r := find_longest_match a b alo ahi blo bhi with hr
    show matchedM a b (n + 1) alo ahi blo bhi ≤ _
    rw [matchedM]
    simp only [← hr]
    by_cases hk : r.2.2 = 0
    · rw [if_pos hk]
      exact Nat.zero_le _
    · rw [if_neg hk]
      -- segment slices
      have hsegeq := seg_eq_of_matchseg a b r.1 r.2.1 r.2.2 hseg
      have hseglen := seg_length_of_matchseg_a a b r.1 r.2.1 r.2.2 hseg
      -- window decompositions
      have hsplitA : (a.drop alo).take (ahi - alo) =
          (a.drop alo).take (r.1 - alo) ++
            ((a.drop r.1).take (r.2.2) ++
              (a.drop (r.1 + r.2.2)).take (ahi - (r.1 + r.2.2))) := by
        have e1 := slice_split a alo r.1 ahi (by omega) (by omega)
        have e2 := slice_split a r.1 (r.1 + r.2.2) ahi (by omega) (by omega)
        have e3 : r.1 + r.2.2 - r.1 = r.2.2 := by omega
        rw [e1, e2, e3]
      have hsplitB : (b.drop blo).take (bhi - blo) =
          (b.drop blo).take (r.2.1 - blo) ++
            ((b.drop r.2.1).take (r.2.2) ++
              (b.drop (r.2.1 + r.2.2)).take (bhi - (r.2.1 + r.2.2))) := by
        have e1 := slice_split b blo r.2.1 bhi (by omega) (by omega)
        have e2 := slice_split b r.2.1 (r.2.1 + r.2.2) bhi (by omega) (by omega)
        have e3 : r.2.1 + r.2.2 - r.2.1 = r.2.2 := by omega
        rw [e1, e2, e3]
      rw [hsplitA, hsplitB]
      have hL : (if alo < r.1 ∧ blo < r.2.1 then
          matchedM a b n alo r.1 blo r.2.1 else 0) ≤
          Multiset.card ((((a.drop alo).take (r.1 - alo) : List Char) :
              Multiset Char) ∩
            (((b.drop blo).take (r.2.1 - blo) : List Char) : Multiset Char)) := by
        by_cases hc : alo < r.1 ∧ blo < r.2.1
        · rw [if_pos hc]
          exact ih alo r.1 blo r.2.1 (by omega) (by omega)
        · rw [if_neg hc]
          exact Nat.zero_le _
      have hR : (if r.1 + r.2.2 < ahi ∧ r.2.1 + r.2.2 < bhi then
          matchedM a b n (r.1 + r.2.2) ahi (r.2.1 + r.2.2) bhi else 0) ≤
          Multiset.card
            ((((a.drop (r.1 + r.2.2)).take (ahi - (r.1 + r.2.2)) : List Char) :
              Multiset Char) ∩
            (((b.drop (r.2.1 + r.2.2)).take (bhi - (r.2.1 + r.2.2)) :
              List Char) : Multiset Char)) := by
        by_cases hc : r.1 + r.2.2 < ahi ∧ r.2.1 + r.2.2 < bhi
        · rw [if_pos hc]
          exact ih (r.1 + r.2.2) ahi (r.2.1 + r.2.2) bhi (by omega) (by omega)
        · rw [if_neg hc]
          exact Nat.zero_le _
      -- assemble
      have hmain := card_inter_tripartite
        (((a.drop alo).take (r.1 - alo) : List Char) : Multiset Char)
        (((a.drop (r.1 + r.2.2)).take (ahi - (r.1 + r.2.2)) : List Char) :
          Multiset Char)
        (((b.drop blo).take (r.2.1 - blo) : List Char) : Multiset Char)
        (((b.drop (r.2.1 + r.2.2)).take (bhi - (r.2.1 + r.2.2)) : List Char) :
          Multiset Char)
        (((a.drop r.1).take (r.2.2) : List Char) : Multiset Char)
      have hcardS : Multiset.card
          (((a.drop r.1).take (r.2.2) : List Char) : Multiset Char) = r.2.2 := by
        simpa using hseglen
      rw [hcardS] at hmain
      calc r.2.2 + _ + _ ≤ r.2.2 +
            Multiset.card ((((a.drop alo).take (r.1 - alo) : List Char) :
                Multiset Char) ∩
              (((b.drop blo).take (r.2.1 - blo) : List Char) : Multiset Char)) +
            Multiset.card
              ((((a.drop (r.1 + r.2.2)).take (ahi - (r.1 + r.2.2)) :
                  List Char) : Multiset Char) ∩
              (((b.drop (r.2.1 + r.2.2)).take (bhi - (r.2.1 + r.2.2)) :
                  List Char) : Multiset Char)) := by
              exact Nat.add_le_add (Nat.add_le_add le_rfl hL) hR
        _ ≤ _ := by
              have hco : ((((a.drop alo).take (r.1 - alo) ++
                  ((a.drop r.1).take (r.2.2) ++
                    (a.drop (r.1 + r.2.2)).take (ahi - (r.1 + r.2.2)))) :
                  List Char) : Multiset Char) =
                  (((a.drop alo).take (r.1 - alo) : List Char) : Multiset Char) +
                  (((a.drop r.1).take (r.2.2) : List Char) : Multiset Char) +
                  (((a.drop (r.1 + r.2.2)).take (ahi - (r.1 + r.2.2)) :
                    List Char) : Multiset Char) := by
                simp [Multiset.coe_add]
              have hcob : ((((b.drop blo).take (r.2.1 - blo) ++
                  ((b.drop r.2.1).take (r.2.2) ++
                    (b.drop (r.2.1 + r.2.2)).take (bhi - (r.2.1 + r.2.2)))) :
                  List Char) : Multiset Char) =
                  (((b.drop blo).take (r.2.1 - blo) : List Char) :
                    Multiset Char) +
                  (((a.drop r.1).take (r.2.2) : List Char) : Multiset Char) +
                  (((b.drop (r.2.1 + r.2.2)).take (bhi - (r.2.1 + r.2.2)) :
                    List Char) : Multiset Char) := by
                rw [hsegeq]
                simp [Multiset.coe_add]
              rw [hco, hcob]
              exact hmain

theorem matchedFull_le (a b : Str) :
    matchedFull a b ≤
      Multiset.card (((a : List Char) : Multiset Char) ∩
        ((b : List Char) : Multiset Char)) := by
  have := matchedM_le a b (a.length + b.length + 1) 0 a.length 0 b.length
    (Nat.zero_le _) (Nat.zero_le _)
  simpa [matchedFull] using this

theorem card_inter_append_singleton (p : Str) (e : Char) (b : Str) :
    Multiset.card (((p ++ [e] : List Char) : Multiset Char) ∩
        ((b : List Char) : Multiset Char)) =
      Multiset.card (((p : List Char) : Multiset Char) ∩
          ((b : List Char) : Multiset Char)) +
        (if p.count e < b.count e then 1 else 0) := by
  have hms : ((p ++ [e] : List Char) : Multiset Char) ∩
      ((b : List Char) : Multiset Char) =
      (((p : List Char) : Multiset Char) ∩ ((b : List Char) : Multiset Char)) +
        (if p.count e < b.count e then {e} else 0) := by
    rw [Multiset.ext]
    intro c
    by_cases hce : c = e
    · subst hce
      by_cases hlt : p.count c < b.count c
      · simp [Multiset.count_inter, hlt]
        omega
      · simp [Multiset.count_inter, hlt]
        omega
    · by_cases hlt : p.count e < b.count e
      · simp [Multiset.count_inter, hlt, List.count_append, hce]
      · simp [Multiset.count_inter, hlt, List.count_append, hce]
  rw [hms]
  by_cases hlt : p.count e < b.count e
  · simp [hlt]
  · simp [hlt]

theorem quickMatches_eq (a b : Str) :
    quickMatches a b =
      Multiset.card (((a : List Char) : Multiset Char) ∩
        ((b : List Char) : Multiset Char)) := by
  unfold quickMatches
  suffices H : ∀ (rest p : Str) (st : (Char → Option Int) × Nat),
      (∀ c : Char, (match st.1 c with
        | some v => v
        | none => (b.count c : Int)) = (b.count c : Int) - p.count c) →
      st.2 = Multiset.card (((p : List Char) : Multiset Char) ∩
        ((b : List Char) : Multiset Char)) →
      ((rest.foldl
        (fun (st : (Char → Option Int) × Nat) elt =>
          let numb := match st.1 elt with
            | some v => v
            | none => (b.count elt : Int)
          ((fun c => if c = elt then some (numb - 1) else st.1 c),
            if 0 < numb then st.2 + 1 else st.2))
        st).2 =
        Multiset.card (((p ++ rest : List Char) : Multiset Char) ∩
          ((b : List Char) : Multiset Char))) by
    have := H a [] ((fun _ => none), 0) (fun c => by simp) (by simp)
    simpa using this
  intro rest
  induction rest with
  | nil =>
    intro p st _ h2
    simpa using h2
  | cons e rest ih =>
    intro p st h1 h2
    simp only [List.foldl_cons]
    have hnumb : (match st.1 e with
        | some v => v
        | none => (b.count e : Int)) = (b.count e : Int) - p.count e := h1 e
    have happ : p ++ e :: rest = (p ++ [e]) ++ rest := by simp
    rw [happ]
    apply ih
    · intro c
      by_cases hce : c = e
      · subst hce
        simp only [if_pos rfl]
        rw [hnumb]
        have : (p ++ [c]).count c = p.count c + 1 := by
          simp [List.count_append]
        rw [this]
        push_cast
        ring
      · simp only [if_neg hce]
        have : (p ++ [e]).count c = p.count c := by
          simp [List.count_append, hce]
        rw [this]
        exact h1 c
    · dsimp only
      rw [hnumb, card_inter_append_singleton, ← h2]
      by_cases hlt : p.count e < b.count e
      · rw [if_pos (by omega), if_pos hlt]
      · rw [if_neg (by omega), if_neg hlt]
        simp

theorem quickMatches_le_min (a b : Str) :
    quickMatches a b ≤ min a.length b.length := by
  rw [quickMatches_eq]
  refine le_min ?_ ?_
  · have := Multiset.card_le_card
      (Multiset.inter_le_left (((a : List Char) : Multiset Char))
        (((b : List Char) : Multiset Char)))
    simpa using this
  · have := Multiset.card_le_card
      (Multiset.inter_le_right (((a : List Char) : Multiset Char))
        (((b : List Char) : Multiset Char)))
    simpa using this

theorem matchedFull_le_quickMatches (a b : Str) :
    matchedFull a b ≤ quickMatches a b := by
  rw [quickMatches_eq]
  exact matchedFull_le a b

theorem calcRatio_mono {m m' L : Nat} (h : m ≤ m') :
    calcRatio m L ≤ calcRatio m' L := by
  unfold calcRatio
  by_cases hL : L = 0
  · rw [if_pos hL, if_pos hL]
  · rw [if_neg hL, if_neg hL]
    rw [Rat.mkRat_eq_div, Rat.mkRat_eq_div]
    have hc : (0:ℚ) < (L : ℚ) := by
      exact_mod_cast Nat.pos_of_ne_zero hL
    gcongr

theorem ratioQ_le_quickRatioQ (x w : Str) : ratioQ x w ≤ quickRatioQ x w :=
  calcRatio_mono (matchedFull_le_quickMatches x w)

theorem quickRatioQ_le_realQuickRatioQ (x w : Str) :
    quickRatioQ x w ≤ realQuickRatioQ x w :=
  calcRatio_mono (quickMatches_le_min x w)

theorem chain_iff (x w : Str) (c : ℚ) :
    (realQuickRatioQ x w ≥ c ∧ quickRatioQ x w ≥ c ∧ ratioQ x w ≥ c) ↔
      c ≤ ratioQ x w := by
  constructor
  · exact fun h => h.2.2
  · intro h
    refine ⟨le_trans h (le_trans (ratioQ_le_quickRatioQ x w)
      (quickRatioQ_le_realQuickRatioQ x w)),
      le_trans h (ratioQ_le_quickRatioQ x w), h⟩

theorem filterMap_chain_eq (w : Str) (c : ℚ) (l : List Str) :
    l.filterMap (fun x =>
        if realQuickRatioQ x w ≥ c ∧ quickRatioQ x w ≥ c ∧ ratioQ x w ≥ c
        then some (ratioQ x w, x) else none) =
      (l.map (fun k => (ratioQ k w, k))).filter
        (fun p => decide (c ≤ p.1)) := by
  induction l with
  | nil => rfl
  | cons x t ih =>
    simp only [List.filterMap_cons, List.map_cons, List.filter_cons]
    by_cases hc : c ≤ ratioQ x w
    · rw [if_pos ((chain_iff x w c).mpr hc)]
      rw [ih]
      simp [hc]
    · rw [if_neg (fun h => hc ((chain_iff x w c).mp h))]
      rw [ih]
      simp [hc]

theorem stage4_eq {α : Type} (tbl : Tbl α) (norm : Str) :
    (getCloseMatches1 norm (tbl.map (·.1)) (mkRat 7 10)).bind (dictFind tbl) =
      specFuzzyStage tbl norm := by
  simp only [getCloseMatches1, specFuzzyStage]
  rw [filterMap_chain_eq, pairMax_filter_threshold]
  rcases hmx : pairMax ((tbl.map (·.1)).map fun k => (ratioQ k norm, k))
    with _ | m
  · try rw [hmx]
    rfl
  · try rw [hmx]
    try simp only []
    by_cases hc : mkRat 7 10 ≤ m.1
    · rw [if_pos hc, if_pos hc]
      rfl
    · rw [if_neg hc, if_neg hc]
      rfl

theorem option_orElse_some {β : Type} (x : β) (f : Unit → Option β) :
    (Option.some x).orElse f = some x := rfl

theorem option_orElse_none {β : Type} (f : Unit → Option β) :
    (Option.none).orElse f = f () := rfl

/-- C1 (amended): for every raw name and table, `find_item_row_by_name`
returns `none` on an empty name or table, and otherwise equals the spec's
resolution procedure — exact normalized lookup, then the token-overlap
stage applied only when some query token has length ≥ 3 (threshold 0.60),
then the substring stage (threshold 0.70), then the global
`get_close_matches` fuzzy stage (cutoff 0.70), first success wins, else
`none`. -/
theorem find_item_row_matches_spec {α : Type} (tbl : Tbl α) (name : Str) :
    find_item_row_by_name tbl name =
      if name.isEmpty || tbl.isEmpty then none
      else resolveByClaimGuarded tbl name := by
  by_cases hg : (name.isEmpty || tbl.isEmpty) = true
  · rw [if_pos hg]
    unfold find_item_row_by_name
    rw [if_pos hg]
  · rw [if_neg hg]
    have hgf : (name.isEmpty || tbl.isEmpty) = false := by simpa using hg
    simp only [find_item_row_by_name, resolveByClaimGuarded, specExactStage,
      specTokenStageGuarded, specTokenStage, specSubstrStage, hgf,
      Bool.false_eq_true, if_false]
    rcases hd : dictFind tbl (normalize_name_for_match name) with _ | r
    · try rw [hd]
      try simp only []
      rw [option_orElse_none]
      try simp only []
      by_cases htok : ((splitWs (normalize_name_for_match name)).filter
          (fun t => decide (3 ≤ t.length))).isEmpty = true
      · simp only [htok, Bool.not_true, Bool.false_eq_true, if_false, if_true]
        rw [option_orElse_none]
        try simp only []
        rcases hpm3 : pyMaxBy
            (fun k => ratioQ (normalize_name_for_match name) k)
            ((tbl.map (·.1)).filter
              (fun k => isSubOf (normalize_name_for_match name) k ||
                isSubOf k (normalize_name_for_match name)))
          with _ | bestKey3
        · try rw [hpm3]
          try simp only []
          rw [option_orElse_none]
          try simp only []
          exact stage4_eq tbl (normalize_name_for_match name)
        · try rw [hpm3]
          try simp only []
          by_cases hth3 : mkRat 7 10 ≤
              ratioQ (normalize_name_for_match name) bestKey3
          · rw [if_pos hth3]
            rcases hdb3 : dictFind tbl bestKey3 with _ | r3
            · try rw [hdb3]
              try simp only []
              rw [option_orElse_none]
              try simp only []
              exact stage4_eq tbl (normalize_name_for_match name)
            · try rw [hdb3]
              try simp only []
              rw [option_orElse_some]
          · rw [if_neg hth3, option_orElse_none]
            try simp only []
            exact stage4_eq tbl (normalize_name_for_match name)

      · have htokf : ((splitWs (normalize_name_for_match name)).filter
            (fun t => decide (3 ≤ t.length))).isEmpty = false := by
          simpa using htok
        simp only [htokf, Bool.not_false, Bool.false_eq_true, if_false,
          if_true]
        rcases hpm2 : pyMaxBy
            (fun k => ratioQ (normalize_name_for_match name) k)
            ((tbl.map (·.1)).filter
              (fun k => ((splitWs (normalize_name_for_match name)).filter
                (fun t => decide (3 ≤ t.length))).all
                  (fun t => isSubOf t k)))
          with _ | bestKey2
        · try rw [hpm2]
          try simp only []
          rw [option_orElse_none]
          try simp only []
          rcases hpm3 : pyMaxBy
              (fun k => ratioQ (normalize_name_for_match name) k)
              ((tbl.map (·.1)).filter
                (fun k => isSubOf (normalize_name_for_match name) k ||
                  isSubOf k (normalize_name_for_match name)))
            with _ | bestKey3
          · try rw [hpm3]
            try simp only []
            rw [option_orElse_none]
            try simp only []
            exact stage4_eq tbl (normalize_name_for_match name)
          · try rw [hpm3]
            try simp only []
            by_cases hth3 : mkRat 7 10 ≤
                ratioQ (normalize_name_for_match name) bestKey3
            · rw [if_pos hth3]
              rcases hdb3 : dictFind tbl bestKey3 with _ | r3
              · try rw [hdb3]
                try simp only []
                rw [option_orElse_none]
                try simp only []
                exact stage4_eq tbl (normalize_name_for_match name)
              · try rw [hdb3]
                try simp only []
                rw [option_orElse_some]
            · rw [if_neg hth3, option_orElse_none]
              try simp only []
              exact stage4_eq tbl (normalize_name_for_match name)

        · try rw [hpm2]
          try simp only []
          by_cases hth2 : mkRat 6 10 ≤
              ratioQ (normalize_name_for_match name) bestKey2
          · rw [if_pos hth2]
            rcases hdb2 : dictFind tbl bestKey2 with _ | r2
            · try rw [hdb2]
              try simp only []
              rw [option_orElse_none]
              try simp only []
              rcases hpm3 : pyMaxBy
                  (fun k => ratioQ (normalize_name_for_match name) k)
                  ((tbl.map (·.1)).filter
                    (fun k => isSubOf (normalize_name_for_match name) k ||
                      isSubOf k (normalize_name_for_match name)))
                with _ | bestKey3
              · try rw [hpm3]
                try simp only []
                rw [option_orElse_none]
                try simp only []
                exact stage4_eq tbl (normalize_name_for_match name)
              · try rw [hpm3]
                try simp only []
                by_cases hth3 : mkRat 7 10 ≤
                    ratioQ (normalize_name_for_match name) bestKey3
                · rw [if_pos hth3]
                  rcases hdb3 : dictFind tbl bestKey3 with _ | r3
                  · try rw [hdb3]
                    try simp only []
                    rw [option_orElse_none]
                    try simp only []
                    exact stage4_eq tbl (normalize_name_for_match name)
                  · try rw [hdb3]
                    try simp only []
                    rw [option_orElse_some]
                · rw [if_neg hth3, option_orElse_none]
                  try simp only []
                  exact stage4_eq tbl (normalize_name_for_match name)

            · try rw [hdb2]
              try simp only []
              rw [option_orElse_some]
          · rw [if_neg hth2, option_orElse_none]
            try simp only []
            rcases hpm3 : pyMaxBy
                (fun k => ratioQ (normalize_name_for_match name) k)
                ((tbl.map (·.1)).filter
                  (fun k => isSubOf (normalize_name_for_match name) k ||
                    isSubOf k (normalize_name_for_match name)))
              with _ | bestKey3
            · try rw [hpm3]
              try simp only []
              rw [option_orElse_none]
              try simp only []
              exact stage4_eq tbl (normalize_name_for_match name)
            · try rw [hpm3]
              try simp only []
              by_cases hth3 : mkRat 7 10 ≤
                  ratioQ (normalize_name_for_match name) bestKey3
              · rw [if_pos hth3]
                rcases hdb3 : dictFind tbl bestKey3 with _ | r3
                · try rw [hdb3]
                  try simp only []
                  rw [option_orElse_none]
                  try simp only []
                  exact stage4_eq tbl (normalize_name_for_match name)
                · try rw [hdb3]
                  try simp only []
                  rw [option_orElse_some]
              · rw [if_neg hth3, option_orElse_none]
                try simp only []
                exact stage4_eq tbl (normalize_name_for_match name)

    · try rw [hd]
      try simp only []
      rw [option_orElse_some]


set_option maxRecDepth 8000 in
/-- C1 counterexample: on the one-row table keyed `"ab xy"` and the query
`"ab cd"` — whose tokens `ab`, `cd` are all shorter than 3 — the source
skips the token stage entirely and returns `none` (ratio 1/2 fails every
later cutoff), while the claim's unguarded token stage ranks every key as
containing all (zero) long-enough tokens and accepts the best of them at
ratio 3/5 ≥ 0.60, returning the row. -/
theorem token_stage_literal_reading_diverges :
    find_item_row_by_name [("ab xy".data, 0)] "ab cd".data = none ∧
    resolveByClaim [("ab xy".data, 0)] "ab cd".data = some 0 := by
  decide

end ArcTooltip
